import Mathlib

/-! HDMotion2: `move_head_win32` and the motion sequencer of `main` (`src/main.c`)

Shallow embedding of the two functions of `src/main.c`.

Conventions of the embedding:

* a C `double` is an exact rational (`ℚ`): every finite `double` is a rational, and the
  arithmetic below is carried out without rounding (NaN and infinities are not values
  of the model);
* `LONGLONG`, `int` and `DWORD` values are `Int` / `Nat`; the values that occur stay
  far inside their machine ranges, so no wrap-around is modelled;
* a conversion `(LONGLONG)x` or `(int)x` of a double truncates toward zero, and the C
  operator `%` is `Int.tmod` (remainder with the sign of the dividend);
* a `for` loop is `forLoop` with a fuel argument; every termination statement has the
  form "from some fuel on the result is `some ...`";
* `rand()`, `sin`, `RAND_MAX` and the results of the Win32 calls are inputs (`Env`,
  `res`).

Exact arithmetic and IEEE arithmetic can disagree on how often a loop over doubles
runs when the exit test is met with equality in exact arithmetic (the `x` loops of the
sinusoids and the amplitude loops `amp > 0.0`, `amp <= 0.50`); everything below is
stated and proved for exact arithmetic.  The sweeps of phases 1 and 2 miss their
bounds by far more than a rounding error, and the loops of phase 7 have integer
bounds.  The outer test `l < h` of phase 2 is met with equality (`h = l = 0.50`) after
the eighth round.

The file has three parts: the embedding of `move_head_win32` and `main`, the notions
used to state the results, and the results.
-/

set_option linter.unusedVariables false

namespace HDMotion

/-! ## Numeric helpers -/

/-- Conversion of a double to an integer type, `(LONGLONG)x` or `(int)x`: the
fractional part is discarded (truncation toward zero). -/
def truncToInt (x : ℚ) : Int := if 0 ≤ x then ⌊x⌋ else ⌈x⌉

/-! ## `move_head_win32` (lines 73-125) -/

/-- Results of the two Win32 calls made by one `move_head_win32`:
`SetFilePointerEx` (line 98) and `ReadFile` (line 106). -/
structure MoveOutcome where
  seekOk : Bool
  readOk : Bool
  deriving DecidableEq, Repr

/-- What one call of `move_head_win32` did: the argument it received, the clamped
position, the byte offset handed to `SetFilePointerEx`, whether the seek succeeded,
the result of `ReadFile` (`none` when the function returned before reading) and the
progress bar passed to `puts` (`none` when no bar was printed). -/
structure MoveRecord where
  requested : ℚ
  position : ℚ
  offset : Int
  seekOk : Bool
  readOk : Option Bool
  bar : Option (List Char)
  deriving DecidableEq

/-- Lines 83-90: the two `if`s that clamp `position`. -/
def clampPosition (position : ℚ) : ℚ :=
  let position := if position < 0 then 0 else position
  if position > 1 then 1 else position

/-- Line 120: `int mark = (int)(position * 78)`. -/
def barMark (position : ℚ) : Int := truncToInt (position * 78)

/-- Lines 118-123: `char bar[80]`, 79 blanks, `bar[mark] = '#'`, `bar[79] = '\0'`.
The result is `none` when `mark` is not an index of the array (the C write would be
out of bounds).  The last cell is not initialised by `memset`; it is shown as `'?'`
until line 122 stores the terminator. -/
def progressBar (mark : Int) : Option (List Char) :=
  if 0 ≤ mark ∧ mark < 80 then
    some (((List.replicate 79 ' ' ++ ['?']).set mark.toNat '#').set 79 (Char.ofNat 0))
  else none

/-- Lines 73-125.  `hDisk` and `buffer` are omitted (the handle is opaque and the
buffer content is never inspected); `res` holds the results of the two Win32 calls.
The parameter `bytesPerSector` is received and, as in the source, not used. -/
def move_head_win32 (diskSize : Int) (bytesPerSector : Nat) (position : ℚ)
    (bufferSize : Nat) (res : MoveOutcome) : MoveRecord :=
  let requested := position
  let position := clampPosition position
  let offset := truncToInt (position * (((diskSize - (bufferSize : Int)) : Int) : ℚ))
  let offset := offset - offset.tmod 512
  if !res.seekOk then
    { requested := requested, position := position, offset := offset,
      seekOk := false, readOk := none, bar := none }
  else
    { requested := requested, position := position, offset := offset,
      seekOk := true, readOk := some res.readOk, bar := progressBar (barMark position) }

/-- Alignment of a byte offset down to a multiple of the device's sector size, as the
specification words it: `offset -= offset mod blockSizeBytes`. -/
def specAlignDown (offset : Int) (blockSizeBytes : Nat) : Int :=
  offset - offset.tmod (blockSizeBytes : Int)

/-! ## `main` (lines 132-411) -/

/-- Line 38: `#define PI 3.1415926535897932`. -/
def PI : ℚ := 31415926535897932 / 10000000000000000

/-- Line 211: `#define ZIGZAG_STEP 5`. -/
def ZIGZAG_STEP : Int := 5

/-- Line 44: `#define NOISE (0.0001 * (rand() % 9 + 1))`, as a function of the value `r`
that the call of `rand()` returned. -/
def NOISE (r : Nat) : ℚ := 1 / 10000 * ((r % 9 + 1 : Nat) : ℚ)

/-- Inputs of one run of `main`: the command line, the results of the system calls
made before the sequencer starts, the contents of `diskgeom` after the geometry query
(`diskgeom` is zero-initialised, so both are 0 when the query wrote nothing), the
stream of values returned by successive calls of `rand()`, the constant `RAND_MAX` and
the function `sin` of the C library. -/
structure Env where
  argc : Nat
  snprintfOk : Bool
  openOk : Bool
  accessDenied : Bool
  geomOk : Bool
  diskSize : Int
  bytesPerSector : Nat
  rand : Nat → Nat
  RAND_MAX : Nat
  sin : ℚ → ℚ

/-- Lines printed by `main` itself. -/
inductive Message
  | missingDiskId
  | parameterError
  | failedToOpen
  | needsAdministrator
  | geometryFailed
  deriving DecidableEq, Repr

/-- How a run of `main` ends: by returning `code` after having printed `messages` and
made the calls `log` of `move_head_win32`, or in the integer division by zero of line
201 (`DiskSize.QuadPart / BytesPerSector` with `BytesPerSector = 0`), which is
undefined behaviour. -/
inductive MainResult
  | returned (code : Int) (messages : List Message) (log : List MoveRecord)
  | divideByZero (messages : List Message)
  deriving DecidableEq

/-- The local variables of `main` that the sequencer uses, with the number `rng` of
calls of `rand()` made so far and the calls `log` of `move_head_win32` made so far
(oldest first).  `rep` is the local `repeat` of lines 366 and 383. -/
structure St where
  f : ℚ
  s : ℚ
  h : ℚ
  l : ℚ
  amp : ℚ
  x : ℚ
  heads : Int
  rep : Int
  i : Int
  j : Int
  rng : Nat
  log : List MoveRecord

/-- Lines 208-209: `f = 0.0`, `s = 0.01`; nothing drawn, nothing moved.  The other
locals are assigned before their first use; they are shown as 0 until then. -/
def St.init : St :=
  { f := 0, s := 1 / 100, h := 0, l := 0, amp := 0, x := 0, heads := 0, rep := 0,
    i := 0, j := 0, rng := 0, log := [] }

/-- One call `move_head_win32(hDisk, diskgeom.DiskSize, diskgeom.Geometry.BytesPerSector,
position, buffer, 512)` made by `main`; `res k` holds the results of the Win32 calls
of call number `k`. -/
def St.move (env : Env) (res : Nat → MoveOutcome) (st : St) (position : ℚ) : St :=
  { st with log := st.log ++
      [move_head_win32 env.diskSize env.bytesPerSector position 512 (res st.log.length)] }

/-- A call of `move_head_win32` whose position argument is `base + NOISE`: one call of
`rand()`, then the move. -/
def St.moveNoisy (env : Env) (res : Nat → MoveOutcome) (st : St) (base : ℚ) : St :=
  { St.move env res st (base + NOISE (env.rand st.rng)) with rng := st.rng + 1 }

/-- The C loop `for (...; cond; incr) body`, started in the state reached after the
initialisation clause.  Each evaluation of the condition that finds it true uses one
unit of fuel; `none` means that the fuel ran out (or that the body's did). -/
def forLoop (cond : St → Prop) [DecidablePred cond] (body : St → Option St)
    (incr : St → St) : Nat → St → Option St
  | 0, _ => none
  | fuel + 1, st =>
    if cond st then (body st).bind (fun st1 => forLoop cond body incr fuel (incr st1))
    else some st

/-- Line 217 and lines 240, 243: the per-iteration step `s + 0.001 * (i + 1)`. -/
def zigStep (s : ℚ) (i : Int) : ℚ := s + 1 / 1000 * ((i + 1 : Int) : ℚ)

/-- Lines 240 and 243: `(ZIGZAG_STEP - 1) / ZIGZAG_STEP`, a division of two `int`s. -/
def zigGrowth : Int := Int.tdiv (ZIGZAG_STEP - 1) ZIGZAG_STEP

/-- Lines 217-226: the forward sweep. -/
def zigForward (env : Env) (res : Nat → MoveOutcome) (fuel : Nat) (st : St) : Option St :=
  forLoop (fun st => st.f ≤ 1) (fun st => some (St.move env res st st.f))
    (fun st => { st with f := st.f + zigStep st.s st.i }) fuel { st with f := 0 }

/-- Lines 228-238: the backward sweep. -/
def zigBackward (env : Env) (res : Nat → MoveOutcome) (fuel : Nat) (st : St) : Option St :=
  forLoop (fun st => st.f ≥ 0) (fun st => some (St.move env res st st.f))
    (fun st => { st with f := st.f - zigStep st.s st.i }) fuel { st with f := st.f - st.s }

/-- Lines 215-241: the body of the zig-zag loop. -/
def zigIteration (env : Env) (res : Nat → MoveOutcome) (fuel : Nat) (st : St) : Option St :=
  (zigForward env res fuel st).bind fun st =>
  (zigBackward env res fuel st).bind fun st =>
  some { st with s := st.s + (zigGrowth : ℚ) }

/-- Lines 213-243: phase 1, with the statement `f += (ZIGZAG_STEP - 1) / ZIGZAG_STEP`
that follows the loop. -/
def zigzag (env : Env) (res : Nat → MoveOutcome) (fuel : Nat) (st : St) : Option St :=
  (forLoop (fun st => st.i < ZIGZAG_STEP) (zigIteration env res fuel)
    (fun st => { st with i := st.i + 1 }) fuel { st with i := 0 }).map
    fun st => { st with f := st.f + (zigGrowth : ℚ) }

/-- Lines 251-260: the upward sweep of the tightening zig-zag. -/
def tightenUp (env : Env) (res : Nat → MoveOutcome) (fuel : Nat) (st : St) : Option St :=
  forLoop (fun st => st.f < st.h) (fun st => some (St.move env res st st.f))
    (fun st => { st with f := st.f + (st.s + NOISE (env.rand st.rng)), rng := st.rng + 1 })
    fuel st

/-- Lines 261-270: the downward sweep of the tightening zig-zag. -/
def tightenDown (env : Env) (res : Nat → MoveOutcome) (fuel : Nat) (st : St) : Option St :=
  forLoop (fun st => st.f > st.l) (fun st => some (St.move env res st st.f))
    (fun st => { st with f := st.f - (st.s + NOISE (env.rand st.rng)), rng := st.rng + 1 })
    fuel st

/-- Lines 250-274: one round of the tightening zig-zag. -/
def tightenRound (env : Env) (res : Nat → MoveOutcome) (fuel : Nat) (st : St) : Option St :=
  (tightenUp env res fuel st).bind fun st =>
  (tightenDown env res fuel st).bind fun st =>
  some { st with h := st.h - 5 / 100, l := st.l + 5 / 100 }

/-- Lines 245-274: phase 2. -/
def tightening (env : Env) (res : Nat → MoveOutcome) (fuel : Nat) (st : St) : Option St :=
  forLoop (fun st => st.l < st.h) (tightenRound env res fuel) (fun st => st) fuel
    { st with h := 9 / 10, l := 1 / 10 }

/-- Lines 282-291 and 299-308: one period of the sinusoid, `x` from 0 in steps of
`PI / 32.0` while `x < 2 * PI`. -/
def sinePeriod (env : Env) (res : Nat → MoveOutcome) (fuel : Nat) (st : St) : Option St :=
  forLoop (fun st => st.x < 2 * PI)
    (fun st => some (St.moveNoisy env res st (env.sin st.x * st.amp + 1 / 2)))
    (fun st => { st with x := st.x + PI / 32 }) fuel { st with x := 0 }

/-- Lines 276-292: phase 3, the widening sinusoid. -/
def wideningSine (env : Env) (res : Nat → MoveOutcome) (fuel : Nat) (st : St) : Option St :=
  forLoop (fun st => st.amp ≤ 50 / 100) (sinePeriod env res fuel)
    (fun st => { st with amp := st.amp + 5 / 100 }) fuel { st with amp := 5 / 100 }

/-- Lines 294-309: phase 4, the narrowing sinusoid. -/
def narrowingSine (env : Env) (res : Nat → MoveOutcome) (fuel : Nat) (st : St) : Option St :=
  forLoop (fun st => st.amp > 0) (sinePeriod env res fuel)
    (fun st => { st with amp := st.amp - 5 / 100 }) fuel { st with amp := 50 / 100 }

/-- Lines 318-333 and 343-358: the body of the double-sinusoid loops, two moves. -/
def doubleMove (env : Env) (res : Nat → MoveOutcome) (st : St) : St :=
  let st := { st with f := env.sin st.x * st.amp + 1 / 2 }
  let st := St.moveNoisy env res st st.f
  St.moveNoisy env res st (1 - st.f)

/-- Lines 316-334 and 341-359: one period of the double sinusoid, `x` in steps of
`PI / 16.0`. -/
def doublePeriod (env : Env) (res : Nat → MoveOutcome) (fuel : Nat) (st : St) : Option St :=
  forLoop (fun st => st.x < 2 * PI) (fun st => some (doubleMove env res st))
    (fun st => { st with x := st.x + PI / 16 }) fuel { st with x := 0 }

/-- Lines 311-335: phase 5, the widening double sinusoid. -/
def wideningDouble (env : Env) (res : Nat → MoveOutcome) (fuel : Nat) (st : St) : Option St :=
  forLoop (fun st => st.amp ≤ 5 / 10) (doublePeriod env res fuel)
    (fun st => { st with amp := st.amp + 5 / 100 }) fuel { st with amp := 5 / 100 }

/-- Lines 337-360: phase 6, the narrowing double sinusoid (`amp >= 0.0`). -/
def narrowingDouble (env : Env) (res : Nat → MoveOutcome) (fuel : Nat) (st : St) : Option St :=
  forLoop (fun st => st.amp ≥ 0) (doublePeriod env res fuel)
    (fun st => { st with amp := st.amp - 5 / 100 }) fuel { st with amp := 50 / 100 }

/-- Lines 369-378 and 386-395: the loop over `j`, one move per head. -/
def headsRow (env : Env) (res : Nat → MoveOutcome) (fuel : Nat) (st : St) : Option St :=
  forLoop (fun st => st.j ≤ st.heads)
    (fun st => some (St.moveNoisy env res st ((st.j : ℚ) / ((st.heads + 1 : Int) : ℚ))))
    (fun st => { st with j := st.j + 1 }) fuel { st with j := 1 }

/-- Lines 366-379 and 383-396: the body of the loops over `heads`:
`int repeat = 160 / heads`, then `repeat` rows. -/
def headsBlock (env : Env) (res : Nat → MoveOutcome) (fuel : Nat) (st : St) : Option St :=
  forLoop (fun st => st.i < st.rep) (headsRow env res fuel)
    (fun st => { st with i := st.i + 1 }) fuel
    { st with rep := Int.tdiv 160 st.heads, i := 0 }

/-- Lines 364-380: the first loop over `heads`, `for (heads = 2; heads < 7; ++heads)`. -/
def headsUp (env : Env) (res : Nat → MoveOutcome) (fuel : Nat) (st : St) : Option St :=
  forLoop (fun st => st.heads < 7) (headsBlock env res fuel)
    (fun st => { st with heads := st.heads + 1 }) fuel { st with heads := 2 }

/-- Lines 381-397: the second loop over `heads`, `for (; heads > 0; heads -= 2)`; it has
no initialisation clause and starts from the value the first loop left. -/
def headsDown (env : Env) (res : Nat → MoveOutcome) (fuel : Nat) (st : St) : Option St :=
  forLoop (fun st => st.heads > 0) (headsBlock env res fuel)
    (fun st => { st with heads := st.heads - 2 }) fuel st

/-- Lines 362-397: phase 7; `int heads = 0` and the two loops. -/
def multiHead (env : Env) (res : Nat → MoveOutcome) (fuel : Nat) (st : St) : Option St :=
  (headsUp env res fuel { st with heads := 0 }).bind (headsDown env res fuel)

/-- Lines 399-408: phase 8, 600 moves to `(double)rand() / RAND_MAX`. -/
def randomJumps (env : Env) (res : Nat → MoveOutcome) (fuel : Nat) (st : St) : Option St :=
  forLoop (fun st => st.i < 600)
    (fun st => some { St.move env res st ((env.rand st.rng : ℚ) / (env.RAND_MAX : ℚ)) with
      rng := st.rng + 1 })
    (fun st => { st with i := st.i + 1 }) fuel { st with i := 0 }

/-- Lines 208-408: the eight phases in order. -/
def sequencer (env : Env) (res : Nat → MoveOutcome) (fuel : Nat) (st : St) : Option St :=
  (zigzag env res fuel st).bind fun st =>
  (tightening env res fuel st).bind fun st =>
  (wideningSine env res fuel st).bind fun st =>
  (narrowingSine env res fuel st).bind fun st =>
  (wideningDouble env res fuel st).bind fun st =>
  (narrowingDouble env res fuel st).bind fun st =>
  (multiHead env res fuel st).bind fun st =>
  randomJumps env res fuel st

/-- Lines 132-411.  The checks of lines 139-173 return early; a failed geometry query
(lines 185-188) only prints a line and execution goes on; line 201 divides by
`BytesPerSector`; falling off the end of `main` returns 0.  Calls whose results the
program never looks at (`srand`, `SetFilePointer`, `VirtualAlloc`, `CloseHandle`) are
left out. -/
def main (env : Env) (res : Nat → MoveOutcome) (fuel : Nat) : Option MainResult :=
  if env.argc < 2 then some (.returned 0 [.missingDiskId] [])
  else if !env.snprintfOk then some (.returned (-1) [.parameterError] [])
  else if !env.openOk then
    some (.returned (-1)
      (if env.accessDenied then [.failedToOpen, .needsAdministrator] else [.failedToOpen]) [])
  else
    let messages := if !env.geomOk then [Message.geometryFailed] else []
    if env.bytesPerSector = 0 then some (.divideByZero messages)
    else (sequencer env res fuel St.init).map fun st => .returned 0 messages st.log

/-! ## Auxiliary notions used in the statements -/

/-- The positions passed to `move_head_win32`, in call order. -/
def attempted (log : List MoveRecord) : List ℚ := log.map MoveRecord.requested

/-- The log after calls of `move_head_win32` at the positions `ps`, in order. -/
def moves (env : Env) (res : Nat → MoveOutcome) (log : List MoveRecord) (ps : List ℚ) :
    List MoveRecord :=
  ps.foldl (fun lg p =>
    lg ++ [move_head_win32 env.diskSize env.bytesPerSector p 512 (res lg.length)]) log

/-- The noise added to consecutive bases, the first one drawn by call number `rng` of
`rand()`. -/
def noisy (rand : Nat → Nat) : Nat → List ℚ → List ℚ
  | _, [] => []
  | rng, b :: bs => (b + NOISE (rand rng)) :: noisy rand (rng + 1) bs

/-- A fuel-indexed program started in `st` ends in `st1` once the fuel is at least
some bound. -/
def Conv (p : Nat → St → Option St) (st st1 : St) : Prop :=
  ∃ N, ∀ n, N ≤ n → p n st = some st1

/-- The positions of one row of `headCount` heads: `j / (headCount + 1)`, `j = 1..headCount`. -/
def headRow (headCount : Nat) : List ℚ :=
  (List.range headCount).map fun (j : Nat) => ((j + 1 : Nat) : ℚ) / ((headCount + 1 : Nat) : ℚ)

/-- The noise-free positions of a multi-head sweep over the given head counts:
`160 / headCount` rows per head count. -/
def headBases (counts : List Nat) : List ℚ :=
  counts.flatMap fun c => (List.replicate (160 / c) (headRow c)).flatten

/-- Head counts of the multi-head sweep as the specification lists them. -/
def specHeadCounts : List Nat := [2, 3, 4, 5, 6, 6, 4, 2]

/-- Head counts that the two loops of lines 364 and 381 go through. -/
def codeHeadCounts : List Nat := [2, 3, 4, 5, 6, 7, 5, 3, 1]

/-- Number of values `0, δ, 2δ, ...` that are `≤ 1`. -/
def sweepCount (δ : ℚ) : Nat := (⌊1 / δ⌋).toNat + 1

/-- Number of values `a, a - δ, a - 2δ, ...` that are `≥ 0`. -/
def backCount (a δ : ℚ) : Nat := if 0 ≤ a then (⌊a / δ⌋).toNat + 1 else 0

/-- The positions `0, δ, 2δ, ...` up to 1. -/
def forwardSweep (δ : ℚ) : List ℚ := (List.range (sweepCount δ)).map fun (k : Nat) => (k : ℚ) * δ

/-- The positions `a, a - δ, a - 2δ, ...` down to 0. -/
def backwardSweep (a δ : ℚ) : List ℚ :=
  (List.range (backCount a δ)).map fun (k : Nat) => a - (k : ℚ) * δ

/-- The value of `f` at which the backward sweep starts (line 228, `f -= s`): the
first multiple of the step `δ` above 1, less `s`. -/
def zigTurn (s δ : ℚ) : ℚ := (sweepCount δ : ℚ) * δ - s

/-- The positions of iteration `i` of the zig-zag run with speed `s`: the forward
sweep, then the backward sweep, both in steps of `zigStep s i`. -/
def zigPair (s : ℚ) (i : Nat) : List ℚ × List ℚ :=
  (forwardSweep (zigStep s i), backwardSweep (zigTurn s (zigStep s i)) (zigStep s i))

/-- The positions of the first `k` iterations of the zig-zag run with speed `s`. -/
def zigPositions (s : ℚ) (k : Nat) : List ℚ :=
  (List.range k).flatMap fun (i : Nat) => (zigPair s i).1 ++ (zigPair s i).2

/-- The value of `f` after `k` iterations of the zig-zag run with speed `s`, started
with `f = f0`. -/
def zigEnd (s f0 : ℚ) : Nat → ℚ
  | 0 => f0
  | k + 1 => zigTurn s (zigStep s k) -
      (backCount (zigTurn s (zigStep s k)) (zigStep s k) : ℚ) * zigStep s k

/-- Between the states `st` and `st2` the program made exactly the moves to
`base + NOISE` for the bases `bases`, in order, drawing one `rand()` value for each. -/
def Emitted (env : Env) (res : Nat → MoveOutcome) (st st2 : St) (bases : List ℚ) : Prop :=
  st2.log = moves env res st.log (noisy env.rand st.rng bases) ∧
    st2.rng = st.rng + bases.length

/-- A sample run: opened device of 1 MiB with 512-byte sectors, `rand()` returning 0 at
every call, `sin` replaced by the zero function. -/
def sampleEnv : Env :=
  { argc := 2, snprintfOk := true, openOk := true, accessDenied := false, geomOk := true,
    diskSize := 1048576, bytesPerSector := 512, rand := fun _ => 0, RAND_MAX := 32767,
    sin := fun _ => 0 }

/-- Every seek and every read succeeds. -/
def allOk : Nat → MoveOutcome := fun _ => { seekOk := true, readOk := true }

theorem truncToInt_of_nonneg {x : ℚ} (hx : 0 ≤ x) : truncToInt x = ⌊x⌋ := by
  simp [truncToInt, hx]

theorem truncToInt_intCast (n : Int) : truncToInt (n : ℚ) = n := by
  unfold truncToInt
  split <;> simp

theorem clampPosition_nonneg (p : ℚ) : 0 ≤ clampPosition p := by
  unfold clampPosition
  simp only []
  split_ifs <;> linarith

theorem clampPosition_le_one (p : ℚ) : clampPosition p ≤ 1 := by
  unfold clampPosition
  simp only []
  split_ifs <;> linarith

theorem clampPosition_of_mem {p : ℚ} (h0 : 0 ≤ p) (h1 : p ≤ 1) : clampPosition p = p := by
  unfold clampPosition
  simp only []
  split_ifs <;> linarith

theorem clampPosition_of_neg {p : ℚ} (h : p < 0) : clampPosition p = 0 := by
  unfold clampPosition
  simp only []
  split_ifs <;> linarith

theorem clampPosition_of_one_lt {p : ℚ} (h : 1 < p) : clampPosition p = 1 := by
  unfold clampPosition
  simp only []
  split_ifs <;> linarith

theorem move_head_win32_requested (d : Int) (b : Nat) (p : ℚ) (n : Nat) (res : MoveOutcome) :
    (move_head_win32 d b p n res).requested = p := by
  unfold move_head_win32
  simp only []
  split <;> rfl

theorem move_head_win32_position (d : Int) (b : Nat) (p : ℚ) (n : Nat) (res : MoveOutcome) :
    (move_head_win32 d b p n res).position = clampPosition p := by
  unfold move_head_win32
  simp only []
  split <;> rfl

theorem move_head_win32_offset (d : Int) (b : Nat) (p : ℚ) (n : Nat) (res : MoveOutcome) :
    (move_head_win32 d b p n res).offset =
      truncToInt (clampPosition p * ((d - (n : Int) : Int) : ℚ)) -
        (truncToInt (clampPosition p * ((d - (n : Int) : Int) : ℚ))).tmod 512 := by
  unfold move_head_win32
  simp only []
  split <;> rfl

/-! ## Loops -/

section Loops

variable (cond : St → Prop) [DecidablePred cond] (incr : St → St)

theorem forLoop_exit (body : St → Option St) (n : Nat) {st : St} (h : ¬ cond st) :
    forLoop cond body incr (n + 1) st = some st := by
  simp [forLoop, h]

theorem forLoop_step (body : St → Option St) (n : Nat) {st st1 : St} (h : cond st)
    (hb : body st = some st1) :
    forLoop cond body incr (n + 1) st = forLoop cond body incr n (incr st1) := by
  simp [forLoop, h, hb]

/-- Total correctness of a loop whose body is itself fuel-indexed: if every iteration
started in a state satisfying the invariant and the condition ends, re-establishes
the invariant and lowers the measure, then the loop ends in a state satisfying the
invariant and the negated condition, for every large enough fuel of the body (`m`)
and of the loop (`n`). -/
theorem forLoop_total (body : Nat → St → Option St) (Inv : St → Prop) (μ : St → Nat)
    (hstep : ∀ st, Inv st → cond st →
      ∃ st1, Conv body st st1 ∧ Inv (incr st1) ∧ μ (incr st1) < μ st)
    (st : St) (h0 : Inv st) :
    ∃ st2, (∃ N, ∀ m n, N ≤ m → N ≤ n → forLoop cond (body m) incr n st = some st2) ∧
      Inv st2 ∧ ¬ cond st2 := by
  have key : ∀ k st, μ st = k → Inv st →
      ∃ st2, (∃ N, ∀ m n, N ≤ m → N ≤ n → forLoop cond (body m) incr n st = some st2) ∧
        Inv st2 ∧ ¬ cond st2 := by
    intro k
    induction k using Nat.strong_induction_on with
    | _ k ih =>
      intro st hk h0
      by_cases hc : cond st
      · obtain ⟨st1, ⟨N1, hN1⟩, hinv, hlt⟩ := hstep st h0 hc
        obtain ⟨st2, ⟨N2, hN2⟩, hinv2, hc2⟩ :=
          ih (μ (incr st1)) (hk ▸ hlt) (incr st1) rfl hinv
        refine ⟨st2, ⟨max N1 N2 + 1, ?_⟩, hinv2, hc2⟩
        intro m n hm hn
        obtain ⟨n, rfl⟩ : ∃ n1, n = n1 + 1 := ⟨n - 1, by omega⟩
        rw [forLoop_step cond incr (body m) n hc (hN1 m (by omega))]
        exact hN2 m n (by omega) (by omega)
      · refine ⟨st, ⟨1, ?_⟩, h0, hc⟩
        intro m n _ hn
        obtain ⟨n, rfl⟩ : ∃ n1, n = n1 + 1 := ⟨n - 1, by omega⟩
        exact forLoop_exit cond incr (body m) n hc
  exact key (μ st) st rfl h0

/-- Total correctness of a loop that runs exactly `cnt` iterations: `P k` describes the
states at the head of iteration `k`.  The loop needs `cnt + 1` units of fuel: with
more than `cnt` it ends, with `cnt` or fewer it runs out. -/
theorem forLoop_counted_exact (body : Nat → St → Option St) (P : Nat → St → Prop) (cnt : Nat)
    (hstep : ∀ k st, k < cnt → P k st →
      cond st ∧ ∃ st1, Conv body st st1 ∧ P (k + 1) (incr st1))
    (hexit : ∀ st, P cnt st → ¬ cond st)
    (st : St) (h0 : P 0 st) :
    ∃ st2 N, (∀ m n, N ≤ m → cnt < n → forLoop cond (body m) incr n st = some st2) ∧
      (∀ m n, N ≤ m → n ≤ cnt → forLoop cond (body m) incr n st = none) ∧
      P cnt st2 := by
  have key : ∀ d k st, k + d = cnt → P k st →
      ∃ st2 N, (∀ m n, N ≤ m → d < n → forLoop cond (body m) incr n st = some st2) ∧
        (∀ m n, N ≤ m → n ≤ d → forLoop cond (body m) incr n st = none) ∧
        P cnt st2 := by
    intro d
    induction d with
    | zero =>
      intro k st hk hP
      have hk' : k = cnt := by omega
      subst hk'
      refine ⟨st, 0, ?_, ?_, hP⟩
      · intro m n _ hn
        obtain ⟨n, rfl⟩ : ∃ n1, n = n1 + 1 := ⟨n - 1, by omega⟩
        exact forLoop_exit cond incr (body m) n (hexit st hP)
      · intro m n _ hn
        have hn0 : n = 0 := by omega
        subst hn0
        rfl
    | succ d ih =>
      intro k st hk hP
      obtain ⟨hc, st1, ⟨N1, hN1⟩, hP1⟩ := hstep k st (by omega) hP
      obtain ⟨st2, N2, hsome, hnone, hP2⟩ := ih (k + 1) (incr st1) (by omega) hP1
      refine ⟨st2, max N1 N2, ?_, ?_, hP2⟩
      · intro m n hm hn
        obtain ⟨n, rfl⟩ : ∃ n1, n = n1 + 1 := ⟨n - 1, by omega⟩
        rw [forLoop_step cond incr (body m) n hc (hN1 m (by omega))]
        exact hsome m n (by omega) (by omega)
      · intro m n hm hn
        rcases n with _ | n
        · rfl
        · rw [forLoop_step cond incr (body m) n hc (hN1 m (by omega))]
          exact hnone m n (by omega) (by omega)
  exact key cnt 0 st (by omega) h0

theorem forLoop_counted (body : Nat → St → Option St) (P : Nat → St → Prop) (cnt : Nat)
    (hstep : ∀ k st, k < cnt → P k st →
      cond st ∧ ∃ st1, Conv body st st1 ∧ P (k + 1) (incr st1))
    (hexit : ∀ st, P cnt st → ¬ cond st)
    (st : St) (h0 : P 0 st) :
    ∃ st2, (∃ N, ∀ m n, N ≤ m → N ≤ n → forLoop cond (body m) incr n st = some st2) ∧
      P cnt st2 := by
  obtain ⟨st2, N, hsome, -, hP⟩ :=
    forLoop_counted_exact cond incr body P cnt hstep hexit st h0
  exact ⟨st2, ⟨max N (cnt + 1), fun m n hm hn => hsome m n (by omega) (by omega)⟩, hP⟩

end Loops

theorem Conv.of_two {p : Nat → Nat → St → Option St} {st st2 : St}
    (h : ∃ N, ∀ m n, N ≤ m → N ≤ n → p m n st = some st2) :
    Conv (fun n => p n n) st st2 := by
  obtain ⟨N, hN⟩ := h
  exact ⟨N, fun n hn => hN n n hn hn⟩

theorem Conv.pure (g : St → Option St) {st st1 : St} (h : g st = some st1) :
    Conv (fun _ => g) st st1 := ⟨0, fun _ _ => h⟩

theorem Conv.bind {p q : Nat → St → Option St} {a b c : St} (hp : Conv p a b)
    (hq : Conv q b c) : Conv (fun n st => (p n st).bind (q n)) a c := by
  obtain ⟨N1, h1⟩ := hp
  obtain ⟨N2, h2⟩ := hq
  refine ⟨max N1 N2, fun n hn => ?_⟩
  simp [h1 n (by omega), h2 n (by omega)]

theorem Conv.map {p : Nat → St → Option St} {a b : St} (hp : Conv p a b) (g : St → St) :
    Conv (fun n st => (p n st).map g) a (g b) := by
  obtain ⟨N1, h1⟩ := hp
  exact ⟨N1, fun n hn => by simp [h1 n hn]⟩

theorem Conv.unique {p : Nat → St → Option St} {a b c : St} (h1 : Conv p a b)
    (h2 : Conv p a c) : b = c := by
  obtain ⟨N1, h1⟩ := h1
  obtain ⟨N2, h2⟩ := h2
  have := (h1 (max N1 N2) (by omega)).symm.trans (h2 (max N1 N2) (by omega))
  exact Option.some.inj this

theorem offset_aligned_bounds {t n : Int} (h0 : 0 ≤ t) (hn : t ≤ n) :
    (t - t.tmod 512) % 512 = 0 ∧ 0 ≤ t - t.tmod 512 ∧ t - t.tmod 512 ≤ n := by
  rw [Int.tmod_eq_emod h0 (by norm_num)]
  omega

theorem truncToInt_clamp_mul_bounds (p : ℚ) {n : Int} (hn : 0 ≤ n) :
    0 ≤ truncToInt (clampPosition p * (n : ℚ)) ∧ truncToInt (clampPosition p * (n : ℚ)) ≤ n := by
  have h0 := clampPosition_nonneg p
  have h1 := clampPosition_le_one p
  have hn' : (0 : ℚ) ≤ (n : ℚ) := by exact_mod_cast hn
  have hprod : 0 ≤ clampPosition p * (n : ℚ) := mul_nonneg h0 hn'
  rw [truncToInt_of_nonneg hprod]
  constructor
  · exact Int.floor_nonneg.mpr hprod
  · have : clampPosition p * (n : ℚ) ≤ (n : ℚ) := by nlinarith
    have h2 : (⌊clampPosition p * (n : ℚ)⌋ : ℚ) ≤ (n : ℚ) := le_trans (Int.floor_le _) this
    exact_mod_cast h2

/-- What does hold of the computed offset on every device with
`diskSize ≥ bufferSize`: it is a multiple of the literal 512 of line 95 and lies in
`[0, diskSize - bufferSize]`. -/
theorem move_head_win32_offset_512 (d : Int) (b : Nat) (p : ℚ) (n : Nat) (res : MoveOutcome)
    (h : (n : Int) ≤ d) :
    (move_head_win32 d b p n res).offset % 512 = 0 ∧
      0 ≤ (move_head_win32 d b p n res).offset ∧
      (move_head_win32 d b p n res).offset ≤ d - n := by
  rw [move_head_win32_offset]
  have hb := truncToInt_clamp_mul_bounds p (n := d - (n : Int)) (by omega)
  exact offset_aligned_bounds hb.1 hb.2

theorem move_head_win32_offset_zero (d : Int) (b : Nat) (n : Nat) (res : MoveOutcome) :
    (move_head_win32 d b 0 n res).offset = 0 := by
  rw [move_head_win32_offset]
  have : clampPosition 0 = 0 := clampPosition_of_mem le_rfl (by norm_num)
  rw [this]
  simp [truncToInt]

theorem move_head_win32_offset_one (d : Int) (b : Nat) (n : Nat) (res : MoveOutcome) :
    (move_head_win32 d b 1 n res).offset = (d - n) - (d - (n : Int)).tmod 512 := by
  rw [move_head_win32_offset]
  have : clampPosition 1 = 1 := clampPosition_of_mem (by norm_num) le_rfl
  rw [this, one_mul, truncToInt_intCast]

theorem move_head_win32_scenario (res : MoveOutcome) :
    (move_head_win32 1048576 512 0 512 res).offset = 0 ∧
      (move_head_win32 1048576 512 1 512 res).offset = 1048064 := by
  rw [move_head_win32_offset_zero, move_head_win32_offset_one]
  constructor
  · rfl
  · decide

/-- C1: on the device `diskSize = 8192`, `bytesPerSector = 4096` (two 4096-byte
sectors) and position `1.0`, with the buffer size 512 of every call site,
`move_head_win32` seeks to byte 7680, which is inside a sector: its remainder by the
sector size is 3584, not 0. -/
theorem move_head_win32_offset_not_sector_aligned (res : MoveOutcome) :
    (move_head_win32 8192 4096 1 512 res).offset = 7680 ∧
      (move_head_win32 8192 4096 1 512 res).offset % ((4096 : Nat) : Int) = 3584 := by
  rw [move_head_win32_offset_one]
  constructor <;> decide

/-- C2: on the device `diskSize = 8192`, `bytesPerSector = 4096`, `bufferSize = 512`
the offset computed at position `1.0` is 7680, whereas `diskSize - bufferSize = 7680`
aligned down to the 4096-byte sector boundary is 4096. -/
theorem move_head_win32_end_offset_not_sector_boundary (res : MoveOutcome) :
    (move_head_win32 8192 4096 1 512 res).offset = 7680 ∧
      specAlignDown (8192 - 512) 4096 = 4096 ∧
      (move_head_win32 8192 4096 1 512 res).offset ≠ specAlignDown (8192 - 512) 4096 := by
  rw [move_head_win32_offset_one]
  refine ⟨by decide, by decide, by decide⟩

/-- C3: the position that enters the offset computation of `move_head_win32` is the
clamp of the argument `p` to `[0, 1]`: it lies in `[0, 1]`, is `p` itself when
`0 ≤ p ≤ 1`, is `0` when `p < 0` and `1` when `p > 1`; the offset is computed from
that clamped value. -/
theorem move_head_win32_clamps (d : Int) (b : Nat) (p : ℚ) (n : Nat) (res : MoveOutcome) :
    0 ≤ (move_head_win32 d b p n res).position ∧
      (move_head_win32 d b p n res).position ≤ 1 ∧
      (0 ≤ p ∧ p ≤ 1 → (move_head_win32 d b p n res).position = p) ∧
      (p < 0 → (move_head_win32 d b p n res).position = 0) ∧
      (1 < p → (move_head_win32 d b p n res).position = 1) ∧
      (move_head_win32 d b p n res).offset =
        truncToInt ((move_head_win32 d b p n res).position * ((d - (n : Int) : Int) : ℚ)) -
          (truncToInt ((move_head_win32 d b p n res).position *
            ((d - (n : Int) : Int) : ℚ))).tmod 512 := by
  rw [move_head_win32_offset, move_head_win32_position]
  exact ⟨clampPosition_nonneg p, clampPosition_le_one p,
    fun h => clampPosition_of_mem h.1 h.2, clampPosition_of_neg, clampPosition_of_one_lt, rfl⟩


theorem moves_nil (env : Env) (res : Nat → MoveOutcome) (log : List MoveRecord) :
    moves env res log [] = log := rfl

theorem moves_append (env : Env) (res : Nat → MoveOutcome) (log : List MoveRecord)
    (ps qs : List ℚ) :
    moves env res log (ps ++ qs) = moves env res (moves env res log ps) qs := by
  simp [moves, List.foldl_append]

theorem moves_single (env : Env) (res : Nat → MoveOutcome) (log : List MoveRecord) (p : ℚ) :
    moves env res log [p] =
      log ++ [move_head_win32 env.diskSize env.bytesPerSector p 512 (res log.length)] := rfl

theorem attempted_moves (env : Env) (res : Nat → MoveOutcome) (log : List MoveRecord)
    (ps : List ℚ) : attempted (moves env res log ps) = attempted log ++ ps := by
  induction ps generalizing log with
  | nil => simp [moves]
  | cons p ps ih =>
    have h : moves env res log (p :: ps) = moves env res (moves env res log [p]) ps := rfl
    rw [h, ih, moves_single]
    simp [attempted, move_head_win32_requested]

theorem St.move_log (env : Env) (res : Nat → MoveOutcome) (st : St) (p : ℚ) :
    (St.move env res st p).log = moves env res st.log [p] := rfl

theorem St.moveNoisy_log (env : Env) (res : Nat → MoveOutcome) (st : St) (b : ℚ) :
    (St.moveNoisy env res st b).log = moves env res st.log [b + NOISE (env.rand st.rng)] := rfl

theorem range_succ_map_moves (env : Env) (res : Nat → MoveOutcome) (log : List MoveRecord)
    (g : Nat → ℚ) (k : Nat) :
    moves env res log ((List.range (k + 1)).map g) =
      moves env res (moves env res log ((List.range k).map g)) [g k] := by
  rw [List.range_succ, List.map_append, moves_append]
  rfl

/-! ## Phase 1: the zig-zag -/

theorem zigGrowth_eq : zigGrowth = 0 := by decide

theorem sweepCount_spec {δ : ℚ} (hδ : 0 < δ) (k : Nat) :
    k < sweepCount δ ↔ (k : ℚ) * δ ≤ 1 := by
  have hfl : (0 : Int) ≤ ⌊1 / δ⌋ := Int.floor_nonneg.mpr (by positivity)
  unfold sweepCount
  rw [Nat.lt_succ_iff, ← Int.ofNat_le, Int.toNat_of_nonneg hfl, Int.le_floor, le_div_iff₀ hδ]
  simp

theorem backCount_spec {a δ : ℚ} (ha : 0 ≤ a) (hδ : 0 < δ) (k : Nat) :
    k < backCount a δ ↔ a - (k : ℚ) * δ ≥ 0 := by
  have hfl : (0 : Int) ≤ ⌊a / δ⌋ := Int.floor_nonneg.mpr (by positivity)
  unfold backCount
  rw [if_pos ha, Nat.lt_succ_iff, ← Int.ofNat_le, Int.toNat_of_nonneg hfl, Int.le_floor,
    le_div_iff₀ hδ]
  simp

theorem zigForward_conv (env : Env) (res : Nat → MoveOutcome) (st : St)
    (hδ : 0 < zigStep st.s st.i) :
    Conv (zigForward env res) st
      { st with f := (sweepCount (zigStep st.s st.i) : ℚ) * zigStep st.s st.i,
                log := moves env res st.log (forwardSweep (zigStep st.s st.i)) } := by
  obtain ⟨st2, hconv, hP⟩ := forLoop_counted (fun st => st.f ≤ 1)
    (fun st => { st with f := st.f + zigStep st.s st.i })
    (fun _ st => some (St.move env res st st.f))
    (fun k s => s =
      { st with
        f := (k : ℚ) * zigStep st.s st.i
        log := moves env res st.log
          ((List.range k).map fun (k : Nat) => (k : ℚ) * zigStep st.s st.i) })
    (sweepCount (zigStep st.s st.i))
    (by
      rintro k s hk rfl
      refine ⟨(sweepCount_spec hδ k).mp hk, _, Conv.pure _ rfl, ?_⟩
      beta_reduce
      rw [range_succ_map_moves, moves_single]
      simp only [St.move]
      congr 1
      push_cast
      ring)
    (by
      rintro s rfl
      exact fun h => lt_irrefl _ ((sweepCount_spec hδ _).mpr h))
    { st with f := 0 } (by simp [moves])
  subst hP
  exact Conv.of_two hconv

theorem zigBackward_conv (env : Env) (res : Nat → MoveOutcome) (st : St)
    (hδ : 0 < zigStep st.s st.i) (ha : 0 ≤ st.f - st.s) :
    Conv (zigBackward env res) st
      { st with f := st.f - st.s -
                  (backCount (st.f - st.s) (zigStep st.s st.i) : ℚ) * zigStep st.s st.i,
                log := moves env res st.log
                  (backwardSweep (st.f - st.s) (zigStep st.s st.i)) } := by
  obtain ⟨st2, hconv, hP⟩ := forLoop_counted (fun st => st.f ≥ 0)
    (fun st => { st with f := st.f - zigStep st.s st.i })
    (fun _ st => some (St.move env res st st.f))
    (fun k s => s =
      { st with
        f := st.f - st.s - (k : ℚ) * zigStep st.s st.i
        log := moves env res st.log
          ((List.range k).map fun (k : Nat) => st.f - st.s - (k : ℚ) * zigStep st.s st.i) })
    (backCount (st.f - st.s) (zigStep st.s st.i))
    (by
      rintro k s hk rfl
      refine ⟨(backCount_spec ha hδ k).mp hk, _, Conv.pure _ rfl, ?_⟩
      beta_reduce
      rw [range_succ_map_moves, moves_single]
      simp only [St.move]
      congr 1
      push_cast
      ring)
    (by
      rintro s rfl
      exact fun h => lt_irrefl _ ((backCount_spec ha hδ _).mpr h))
    { st with f := st.f - st.s } (by simp [moves])
  subst hP
  exact Conv.of_two hconv

theorem zigStep_pos {s : ℚ} (hs : 0 < s) (i : Nat) : 0 < zigStep s (i : Int) := by
  unfold zigStep
  have : (0 : ℚ) ≤ (((i : Int) + 1 : Int) : ℚ) := by push_cast; positivity
  positivity

theorem zigTurn_nonneg {s δ : ℚ} (hs : s ≤ 1) (hδ : 0 < δ) : 0 ≤ zigTurn s δ := by
  have h : ¬ ((sweepCount δ : ℚ) * δ ≤ 1) := fun h =>
    lt_irrefl _ ((sweepCount_spec hδ _).mpr h)
  unfold zigTurn
  linarith [not_le.mp h]

theorem zigIteration_conv (env : Env) (res : Nat → MoveOutcome) (st : St) (i : Nat)
    (hi : st.i = (i : Int)) (hs0 : 0 < st.s) (hs1 : st.s ≤ 1) :
    Conv (zigIteration env res) st
      { st with
        f := zigEnd st.s st.f (i + 1)
        log := moves env res st.log ((zigPair st.s i).1 ++ (zigPair st.s i).2) } := by
  have hδ : 0 < zigStep st.s st.i := hi ▸ zigStep_pos hs0 i
  have h1 := zigForward_conv env res st hδ
  have h2 := zigBackward_conv env res
    { st with
      f := (sweepCount (zigStep st.s st.i) : ℚ) * zigStep st.s st.i
      log := moves env res st.log (forwardSweep (zigStep st.s st.i)) } hδ
    (zigTurn_nonneg hs1 hδ)
  have h3 := Conv.bind (Conv.bind h1 h2)
    (Conv.pure (fun st => some { st with s := st.s + (zigGrowth : ℚ) }) rfl)
  obtain ⟨N, hN⟩ := h3
  refine ⟨N, fun n hn => ?_⟩
  have := hN n hn
  simp only [Option.bind_eq_bind, Option.bind_assoc] at this
  unfold zigIteration
  rw [this]
  simp only [zigGrowth_eq, Int.cast_zero, add_zero, moves_append, zigPair, zigEnd, zigTurn, hi]

theorem zigPositions_succ (s : ℚ) (k : Nat) :
    zigPositions s (k + 1) = zigPositions s k ++ ((zigPair s k).1 ++ (zigPair s k).2) := by
  simp [zigPositions, List.range_succ, List.flatMap_append]

theorem zigLoop_conv (env : Env) (res : Nat → MoveOutcome) (st : St)
    (hs0 : 0 < st.s) (hs1 : st.s ≤ 1) (cnt : Nat) :
    ∃ N, ∀ m n, N ≤ m → N ≤ n →
      forLoop (fun st => st.i < (cnt : Int)) (zigIteration env res m)
        (fun st => { st with i := st.i + 1 }) n { st with i := 0 } =
      some { st with
        i := (cnt : Int)
        f := zigEnd st.s st.f cnt
        log := moves env res st.log (zigPositions st.s cnt) } := by
  obtain ⟨st2, hconv, hP⟩ := forLoop_counted (fun st => st.i < (cnt : Int))
    (fun st => { st with i := st.i + 1 })
    (zigIteration env res)
    (fun k s => s =
      { st with
        i := (k : Int)
        f := zigEnd st.s st.f k
        log := moves env res st.log (zigPositions st.s k) })
    cnt
    (by
      rintro k s hk rfl
      refine ⟨by simpa using hk, _, zigIteration_conv env res _ k rfl hs0 hs1, ?_⟩
      beta_reduce
      rw [zigPositions_succ]
      simp [zigEnd, moves_append])
    (by
      rintro s rfl
      simp)
    { st with i := 0 } (by simp [zigPositions, moves, zigEnd])
  subst hP
  exact hconv

theorem zigzag_conv (env : Env) (res : Nat → MoveOutcome) (st : St)
    (hs0 : 0 < st.s) (hs1 : st.s ≤ 1) :
    Conv (zigzag env res) st
      { st with
        i := 5
        f := zigEnd st.s st.f 5
        log := moves env res st.log (zigPositions st.s 5) } := by
  obtain ⟨N, hN⟩ := zigLoop_conv env res st hs0 hs1 5
  refine ⟨N, fun n hn => ?_⟩
  have h := hN n n hn hn
  simp only [Nat.cast_ofNat] at h
  unfold zigzag ZIGZAG_STEP
  rw [h]
  simp [zigGrowth_eq]

theorem forwardSweep_head (δ : ℚ) : (forwardSweep δ).head? = some 0 := by
  simp [forwardSweep, sweepCount, List.range_succ_eq_map]

theorem forwardSweep_pairwise {δ : ℚ} (hδ : 0 < δ) :
    (forwardSweep δ).Pairwise (fun p q => p ≤ q) := by
  unfold forwardSweep
  rw [List.pairwise_map]
  refine (List.pairwise_lt_range _).imp ?_
  intro a b hab
  have : (a : ℚ) ≤ (b : ℚ) := by exact_mod_cast hab.le
  nlinarith

theorem forwardSweep_mem {δ : ℚ} (hδ : 0 < δ) {p : ℚ} (hp : p ∈ forwardSweep δ) :
    0 ≤ p ∧ p ≤ 1 := by
  unfold forwardSweep at hp
  obtain ⟨k, hk, rfl⟩ := List.mem_map.mp hp
  exact ⟨by positivity, (sweepCount_spec hδ k).mp (List.mem_range.mp hk)⟩

theorem zigSteps_main :
    (List.range 5).map (fun (i : Nat) => zigStep (1 / 100) (i : Int)) =
      [11 / 1000, 12 / 1000, 13 / 1000, 14 / 1000, 15 / 1000] := by
  simp only [List.range_succ, List.range_zero, List.nil_append, List.cons_append, List.map,
    zigStep]
  norm_num

theorem zigStep_main (i : Nat) : zigStep (1 / 100) (i : Int) = (11 + (i : ℚ)) / 1000 := by
  unfold zigStep
  push_cast
  ring

theorem sweepCount_eq {δ : ℚ} {c : Nat} (hδ : 0 < δ) (h1 : (c : ℚ) * δ ≤ 1)
    (h2 : 1 < ((c : ℚ) + 1) * δ) : sweepCount δ = c + 1 := by
  have : ⌊1 / δ⌋ = (c : Int) := by
    rw [Int.floor_eq_iff]
    constructor
    · rw [le_div_iff₀ hδ]; exact_mod_cast h1
    · rw [div_lt_iff₀ hδ]; exact_mod_cast h2
  unfold sweepCount
  rw [this]
  simp

theorem backCount_eq {a δ : ℚ} {c : Nat} (hδ : 0 < δ) (h1 : (c : ℚ) * δ ≤ a)
    (h2 : a < ((c : ℚ) + 1) * δ) : backCount a δ = c + 1 := by
  have ha : 0 ≤ a := le_trans (by positivity) h1
  have : ⌊a / δ⌋ = (c : Int) := by
    rw [Int.floor_eq_iff]
    constructor
    · rw [le_div_iff₀ hδ]; exact_mod_cast h1
    · rw [div_lt_iff₀ hδ]; exact_mod_cast h2
  unfold backCount
  rw [if_pos ha, this]
  simp

theorem sweepCount_vals :
    sweepCount (11 / 1000) = 91 ∧ sweepCount (3 / 250) = 84 ∧ sweepCount (13 / 1000) = 77 ∧
      sweepCount (7 / 500) = 72 ∧ sweepCount (3 / 200) = 67 :=
  ⟨sweepCount_eq (c := 90) (by norm_num) (by norm_num) (by norm_num),
   sweepCount_eq (c := 83) (by norm_num) (by norm_num) (by norm_num),
   sweepCount_eq (c := 76) (by norm_num) (by norm_num) (by norm_num),
   sweepCount_eq (c := 71) (by norm_num) (by norm_num) (by norm_num),
   sweepCount_eq (c := 66) (by norm_num) (by norm_num) (by norm_num)⟩

theorem backCount_vals :
    backCount (991 / 1000) (11 / 1000) = 91 ∧ backCount (499 / 500) (3 / 250) = 84 ∧
      backCount (991 / 1000) (13 / 1000) = 77 ∧ backCount (499 / 500) (7 / 500) = 72 ∧
      backCount (199 / 200) (3 / 200) = 67 :=
  ⟨backCount_eq (c := 90) (by norm_num) (by norm_num) (by norm_num),
   backCount_eq (c := 83) (by norm_num) (by norm_num) (by norm_num),
   backCount_eq (c := 76) (by norm_num) (by norm_num) (by norm_num),
   backCount_eq (c := 71) (by norm_num) (by norm_num) (by norm_num),
   backCount_eq (c := 66) (by norm_num) (by norm_num) (by norm_num)⟩

theorem sweepCounts_main :
    (List.range 5).map (fun (i : Nat) => sweepCount (zigStep (1 / 100) (i : Int))) =
      [91, 84, 77, 72, 67] := by
  obtain ⟨h0, h1, h2, h3, h4⟩ := sweepCount_vals
  simp only [List.range_succ, List.range_zero, List.nil_append, List.cons_append, List.map,
    zigStep_main]
  norm_num [h0, h1, h2, h3, h4]

theorem zigTurns_main :
    (List.range 5).map (fun (i : Nat) =>
      zigTurn (1 / 100) (zigStep (1 / 100) (i : Int))) =
      [991 / 1000, 998 / 1000, 991 / 1000, 998 / 1000, 995 / 1000] := by
  obtain ⟨h0, h1, h2, h3, h4⟩ := sweepCount_vals
  simp only [List.range_succ, List.range_zero, List.nil_append, List.cons_append, List.map,
    zigStep_main, zigTurn]
  norm_num [h0, h1, h2, h3, h4]

theorem backCounts_main :
    (List.range 5).map (fun (i : Nat) =>
      backCount (zigTurn (1 / 100) (zigStep (1 / 100) (i : Int)))
        (zigStep (1 / 100) (i : Int))) =
      [91, 84, 77, 72, 67] := by
  obtain ⟨h0, h1, h2, h3, h4⟩ := sweepCount_vals
  obtain ⟨b0, b1, b2, b3, b4⟩ := backCount_vals
  simp only [List.range_succ, List.range_zero, List.nil_append, List.cons_append, List.map,
    zigStep_main, zigTurn]
  norm_num [h0, h1, h2, h3, h4, b0, b1, b2, b3, b4]

theorem zigEnd_main (f0 : ℚ) : zigEnd (1 / 100) f0 5 = -1 / 100 := by
  obtain ⟨h0, h1, h2, h3, h4⟩ := sweepCount_vals
  obtain ⟨b0, b1, b2, b3, b4⟩ := backCount_vals
  have e : zigEnd (1 / 100) f0 5 = zigTurn (1 / 100) (zigStep (1 / 100) ((4 : Nat) : Int)) -
      (backCount (zigTurn (1 / 100) (zigStep (1 / 100) ((4 : Nat) : Int)))
        (zigStep (1 / 100) ((4 : Nat) : Int)) : ℚ) * zigStep (1 / 100) ((4 : Nat) : Int) := rfl
  rw [e]
  simp only [zigStep_main, zigTurn]
  norm_num [h4, b4]

/-- C7: started as `main` starts it (`f = 0.0`, `s = 0.01`), phase 1 ends, and the
positions it passes to `move_head_win32` are exactly those of 5 pairs, each a forward
sweep followed by a backward sweep.  In each of the 5 iterations the loop of lines
217-226 emits the first list of the pair and the loop of lines 228-238 the second; the
forward list starts with 0, is non-decreasing, and all its members lie in `[0, 1]`. -/
theorem zigzag_five_sweep_pairs (env : Env) (res : Nat → MoveOutcome) :
    ∃ st1, Conv (zigzag env res) St.init st1 ∧
      attempted st1.log =
        ((List.range 5).map (zigPair (1 / 100))).flatMap (fun pr => pr.1 ++ pr.2) ∧
      ((List.range 5).map (zigPair (1 / 100))).length = 5 ∧
      ∀ i : Fin 5,
        (∀ st : St, ∃ st2 st3,
          Conv (zigForward env res) { st with s := 1 / 100, i := ((i : Nat) : Int) } st2 ∧
          st2.log = moves env res st.log (zigPair (1 / 100) i).1 ∧
          Conv (zigBackward env res) st2 st3 ∧
          st3.log = moves env res st2.log (zigPair (1 / 100) i).2) ∧
        (zigPair (1 / 100) i).1.head? = some 0 ∧
        (zigPair (1 / 100) i).1.Pairwise (fun p q => p ≤ q) ∧
        ∀ p ∈ (zigPair (1 / 100) i).1, 0 ≤ p ∧ p ≤ 1 := by
  have hs0 : (0 : ℚ) < 1 / 100 := by norm_num
  have hs1 : (1 : ℚ) / 100 ≤ 1 := by norm_num
  refine ⟨_, zigzag_conv env res St.init hs0 hs1, ?_, by simp, ?_⟩
  · show attempted (moves env res [] (zigPositions (1 / 100) 5)) = _
    rw [attempted_moves]
    simp [attempted, zigPositions, List.flatMap_map]
  · intro i
    have hδ : 0 < zigStep (1 / 100) ((i : Nat) : Int) := zigStep_pos hs0 i
    refine ⟨fun st => ⟨_, _,
      zigForward_conv env res { st with s := 1 / 100, i := ((i : Nat) : Int) } hδ, rfl,
      zigBackward_conv env res _ hδ (zigTurn_nonneg hs1 hδ), rfl⟩,
      forwardSweep_head _, forwardSweep_pairwise hδ, fun p hp => forwardSweep_mem hδ hp⟩

/-- C8: the growth term `(ZIGZAG_STEP - 1) / ZIGZAG_STEP` is 0.  Iteration `i` of
phase 1, entered with `s = 0.01`, ends with `s = 0.01`; its forward sweep emits
`k * step` and its backward sweep `turn - k * step` for consecutive `k`, with the same
`step = s + 0.001 * (i + 1)`.  The five steps are 0.011, 0.012, 0.013, 0.014, 0.015,
strictly increasing; the sweeps have 91, 84, 77, 72, 67 positions.  The loop of phase 1
ends with `s = 0.01` and `f = -0.01`, and the statement of line 243 leaves that state
as it is. -/
theorem zigzag_growth_is_zero (env : Env) (res : Nat → MoveOutcome) :
    zigGrowth = 0 ∧
      (List.range 5).map (fun (i : Nat) => zigStep (1 / 100) (i : Int)) =
        [11 / 1000, 12 / 1000, 13 / 1000, 14 / 1000, 15 / 1000] ∧
      ((List.range 5).map (fun (i : Nat) => zigStep (1 / 100) (i : Int))).Pairwise
        (fun a b => a < b) ∧
      (∀ (i : Fin 5) (st : St), ∃ st1,
        Conv (zigIteration env res) { st with s := 1 / 100, i := ((i : Nat) : Int) } st1 ∧
        st1.s = 1 / 100 ∧
        st1.log = moves env res st.log
          ((List.range (sweepCount (zigStep (1 / 100) ((i : Nat) : Int)))).map
              (fun (k : Nat) => (k : ℚ) * zigStep (1 / 100) ((i : Nat) : Int)) ++
            (List.range (backCount (zigTurn (1 / 100) (zigStep (1 / 100) ((i : Nat) : Int)))
                (zigStep (1 / 100) ((i : Nat) : Int)))).map
              (fun (k : Nat) => zigTurn (1 / 100) (zigStep (1 / 100) ((i : Nat) : Int)) -
                (k : ℚ) * zigStep (1 / 100) ((i : Nat) : Int)))) ∧
      (List.range 5).map (fun (i : Nat) => sweepCount (zigStep (1 / 100) (i : Int))) =
        [91, 84, 77, 72, 67] ∧
      (List.range 5).map (fun (i : Nat) =>
        backCount (zigTurn (1 / 100) (zigStep (1 / 100) (i : Int)))
          (zigStep (1 / 100) (i : Int))) = [91, 84, 77, 72, 67] ∧
      ∃ st0 st1,
        (∃ N, ∀ n, N ≤ n →
          forLoop (fun st => st.i < ZIGZAG_STEP) (zigIteration env res n)
            (fun st => { st with i := st.i + 1 }) n { St.init with i := 0 } = some st0) ∧
        Conv (zigzag env res) St.init st1 ∧
        st0.s = 1 / 100 ∧ st0.f = -1 / 100 ∧ st1 = st0 := by
  have hs0 : (0 : ℚ) < 1 / 100 := by norm_num
  have hs1 : (1 : ℚ) / 100 ≤ 1 := by norm_num
  refine ⟨zigGrowth_eq, zigSteps_main, ?_, ?_, sweepCounts_main, backCounts_main, ?_⟩
  · rw [zigSteps_main]
    norm_num
  · intro i st
    exact ⟨_, zigIteration_conv env res { st with s := 1 / 100, i := ((i : Nat) : Int) } i rfl
      hs0 hs1, rfl, rfl⟩
  · obtain ⟨N, hN⟩ := zigLoop_conv env res St.init hs0 hs1 5
    refine ⟨_, _, ⟨N, fun n hn => ?_⟩, zigzag_conv env res St.init hs0 hs1, rfl, ?_, rfl⟩
    · have h := hN n n hn hn
      simp only [Nat.cast_ofNat] at h
      unfold ZIGZAG_STEP
      exact h
    · exact zigEnd_main 0

/-! ## Phase 2: the tightening zig-zag -/

theorem NOISE_pos (r : Nat) : 0 < NOISE r := by
  unfold NOISE
  positivity

theorem measure_decr {B δ v w : ℚ} (hδ : 0 < δ) (hv : v ≤ B) (hw : v + δ ≤ w) :
    (⌊(B - w) / δ⌋ + 1).toNat < (⌊(B - v) / δ⌋ + 1).toNat := by
  have h0 : (0 : Int) ≤ ⌊(B - v) / δ⌋ :=
    Int.floor_nonneg.mpr (div_nonneg (by linarith) hδ.le)
  have h1 : ⌊(B - w) / δ⌋ ≤ ⌊(B - v) / δ⌋ - 1 := by
    rw [← Int.floor_sub_one]
    apply Int.floor_le_floor
    rw [div_sub_one hδ.ne']
    exact div_le_div_of_nonneg_right (by linarith) hδ.le
  omega

theorem tightenUp_conv (env : Env) (res : Nat → MoveOutcome) (st : St) (hs : 0 < st.s) :
    ∃ st2 ps, Conv (tightenUp env res) st st2 ∧ st2.s = st.s ∧ st2.h = st.h ∧
      st2.l = st.l ∧ st2.log = moves env res st.log ps ∧ (∀ p ∈ ps, p < st.h) ∧
      ¬ (st2.f < st2.h) := by
  obtain ⟨st2, hconv, ⟨h1, h2, h3, ps, h4, h5⟩, hc⟩ := forLoop_total (fun st => st.f < st.h)
    (fun st => { st with f := st.f + (st.s + NOISE (env.rand st.rng)), rng := st.rng + 1 })
    (fun _ st => some (St.move env res st st.f))
    (fun s => s.s = st.s ∧ s.h = st.h ∧ s.l = st.l ∧
      ∃ ps, s.log = moves env res st.log ps ∧ ∀ p ∈ ps, p < st.h)
    (fun s => (⌊(st.h - s.f) / st.s⌋ + 1).toNat)
    (by
      rintro s ⟨h1, h2, h3, ps, h4, h5⟩ hc
      refine ⟨_, Conv.pure _ rfl, ⟨h1, h2, h3, ps ++ [s.f], ?_, ?_⟩, ?_⟩
      · simp only [St.move, moves_append, moves_single, h4]
      · intro p hp
        rcases List.mem_append.mp hp with hp | hp
        · exact h5 p hp
        · rw [List.mem_singleton.mp hp, ← h2]; exact hc
      · have hn := NOISE_pos (env.rand s.rng)
        exact measure_decr hs (by rw [← h2]; exact le_of_lt hc)
          (by simp only [St.move]; linarith))
    st ⟨rfl, rfl, rfl, [], rfl, by simp⟩
  exact ⟨st2, ps, Conv.of_two hconv, h1, h2, h3, h4, h5, hc⟩

theorem tightenDown_conv (env : Env) (res : Nat → MoveOutcome) (st : St) (hs : 0 < st.s) :
    ∃ st2 ps, Conv (tightenDown env res) st st2 ∧ st2.s = st.s ∧ st2.h = st.h ∧
      st2.l = st.l ∧ st2.log = moves env res st.log ps ∧ (∀ p ∈ ps, p > st.l) ∧
      ¬ (st2.f > st2.l) := by
  obtain ⟨st2, hconv, ⟨h1, h2, h3, ps, h4, h5⟩, hc⟩ := forLoop_total (fun st => st.f > st.l)
    (fun st => { st with f := st.f - (st.s + NOISE (env.rand st.rng)), rng := st.rng + 1 })
    (fun _ st => some (St.move env res st st.f))
    (fun s => s.s = st.s ∧ s.h = st.h ∧ s.l = st.l ∧
      ∃ ps, s.log = moves env res st.log ps ∧ ∀ p ∈ ps, p > st.l)
    (fun s => (⌊(-st.l - -s.f) / st.s⌋ + 1).toNat)
    (by
      rintro s ⟨h1, h2, h3, ps, h4, h5⟩ hc
      refine ⟨_, Conv.pure _ rfl, ⟨h1, h2, h3, ps ++ [s.f], ?_, ?_⟩, ?_⟩
      · simp only [St.move, moves_append, moves_single, h4]
      · intro p hp
        rcases List.mem_append.mp hp with hp | hp
        · exact h5 p hp
        · rw [List.mem_singleton.mp hp, ← h3]; exact hc
      · have hn := NOISE_pos (env.rand s.rng)
        have hc' : s.l < s.f := hc
        exact measure_decr hs (by rw [← h3]; linarith)
          (by simp only [St.move]; linarith))
    st ⟨rfl, rfl, rfl, [], rfl, by simp⟩
  exact ⟨st2, ps, Conv.of_two hconv, h1, h2, h3, h4, h5, hc⟩

theorem tightenRound_conv (env : Env) (res : Nat → MoveOutcome) (st : St) (hs : 0 < st.s) :
    ∃ mid low ups downs,
      Conv (tightenUp env res) st mid ∧ mid.log = moves env res st.log ups ∧
      (∀ p ∈ ups, p < st.h) ∧
      Conv (tightenDown env res) mid low ∧ low.log = moves env res mid.log downs ∧
      (∀ p ∈ downs, p > st.l) ∧
      low.s = st.s ∧ low.h = st.h ∧ low.l = st.l ∧
      Conv (tightenRound env res) st { low with h := low.h - 5 / 100, l := low.l + 5 / 100 } := by
  obtain ⟨mid, ups, hc1, hs1, hh1, hl1, hlog1, hup, -⟩ := tightenUp_conv env res st hs
  obtain ⟨low, downs, hc2, hs2, hh2, hl2, hlog2, hdown, -⟩ :=
    tightenDown_conv env res mid (hs1 ▸ hs)
  refine ⟨mid, low, ups, downs, hc1, hlog1, hup, hc2, hlog2, ?_, by rw [hs2, hs1],
    by rw [hh2, hh1], by rw [hl2, hl1], ?_⟩
  · intro p hp
    rw [← hl1]
    exact hdown p hp
  · have h3 := Conv.bind (Conv.bind hc1 hc2)
      (Conv.pure (fun st => some { st with h := st.h - 5 / 100, l := st.l + 5 / 100 }) rfl)
    obtain ⟨N, hN⟩ := h3
    refine ⟨N, fun n hn => ?_⟩
    have := hN n hn
    simp only [Option.bind_eq_bind, Option.bind_assoc] at this
    unfold tightenRound
    exact this

theorem PI_pos : 0 < PI := by
  unfold PI
  norm_num

theorem St.move_ext (env : Env) (res : Nat → MoveOutcome) {s : St} {L : List MoveRecord}
    {ps : List ℚ} (h : s.log = moves env res L ps) (p : ℚ) :
    (St.move env res s p).log = moves env res L (ps ++ [p]) := by
  rw [St.move_log, h, moves_append]

theorem St.moveNoisy_ext (env : Env) (res : Nat → MoveOutcome) {s : St}
    {L : List MoveRecord} {ps : List ℚ} (h : s.log = moves env res L ps) (b : ℚ) :
    (St.moveNoisy env res s b).log =
      moves env res L (ps ++ [b + NOISE (env.rand s.rng)]) := by
  rw [St.moveNoisy_log, h, moves_append]

theorem sinePeriod_conv (env : Env) (res : Nat → MoveOutcome) (st : St) :
    ∃ st2 ps, Conv (sinePeriod env res) st st2 ∧ st2.amp = st.amp ∧
      st2.log = moves env res st.log ps := by
  obtain ⟨st2, hconv, ⟨h1, ps, h2⟩, -⟩ := forLoop_total (fun st => st.x < 2 * PI)
    (fun st => { st with x := st.x + PI / 32 })
    (fun _ st => some (St.moveNoisy env res st (env.sin st.x * st.amp + 1 / 2)))
    (fun s => s.amp = st.amp ∧ ∃ ps, s.log = moves env res st.log ps)
    (fun s => (⌊(2 * PI - s.x) / (PI / 32)⌋ + 1).toNat)
    (by
      rintro s ⟨h1, ps, h2⟩ hc
      refine ⟨_, Conv.pure _ rfl, ⟨h1, _, St.moveNoisy_ext env res h2 _⟩, ?_⟩
      exact measure_decr (div_pos PI_pos (by norm_num)) (le_of_lt hc) le_rfl)
    { st with x := 0 } ⟨rfl, [], rfl⟩
  exact ⟨st2, ps, Conv.of_two hconv, h1, h2⟩

theorem doublePeriod_conv (env : Env) (res : Nat → MoveOutcome) (st : St) :
    ∃ st2 ps, Conv (doublePeriod env res) st st2 ∧ st2.amp = st.amp ∧
      st2.log = moves env res st.log ps := by
  obtain ⟨st2, hconv, ⟨h1, ps, h2⟩, -⟩ := forLoop_total (fun st => st.x < 2 * PI)
    (fun st => { st with x := st.x + PI / 16 })
    (fun _ st => some (doubleMove env res st))
    (fun s => s.amp = st.amp ∧ ∃ ps, s.log = moves env res st.log ps)
    (fun s => (⌊(2 * PI - s.x) / (PI / 16)⌋ + 1).toNat)
    (by
      rintro s ⟨h1, ps, h2⟩ hc
      have hlog := St.moveNoisy_ext env res
        (St.moveNoisy_ext env res (s := { s with f := env.sin s.x * s.amp + 1 / 2 }) h2
          (env.sin s.x * s.amp + 1 / 2)) (1 - (env.sin s.x * s.amp + 1 / 2))
      refine ⟨_, Conv.pure _ rfl, ⟨h1, _, hlog⟩, ?_⟩
      exact measure_decr (div_pos PI_pos (by norm_num)) (le_of_lt hc) le_rfl)
    { st with x := 0 } ⟨rfl, [], rfl⟩
  exact ⟨st2, ps, Conv.of_two hconv, h1, h2⟩

/-- An amplitude loop around a period that keeps `amp` and only appends to the log:
the loop ends when each pass moves `amp` by 0.05 toward the bound that the condition
enforces. -/
theorem ampLoop_conv (env : Env) (res : Nat → MoveOutcome)
    (cond : St → Prop) [DecidablePred cond] (incr : St → St)
    (period : Nat → St → Option St) (v : St → ℚ) (B : ℚ)
    (hper : ∀ st, ∃ st2 ps, Conv period st st2 ∧ st2.amp = st.amp ∧
      st2.log = moves env res st.log ps)
    (hcond : ∀ st, cond st → v st ≤ B)
    (hv : ∀ s t : St, s.amp = t.amp → v (incr s) = v t + 5 / 100)
    (hlog : ∀ s, (incr s).log = s.log)
    (st : St) :
    ∃ st2 ps, Conv (fun n => forLoop cond (period n) incr n) st st2 ∧
      st2.log = moves env res st.log ps := by
  obtain ⟨st2, hconv, ⟨ps, h2⟩, -⟩ := forLoop_total cond incr period
    (fun s => ∃ ps, s.log = moves env res st.log ps)
    (fun s => (⌊(B - v s) / (5 / 100)⌋ + 1).toNat)
    (by
      rintro s ⟨ps, h2⟩ hc
      obtain ⟨s1, qs, hc1, ha, hl⟩ := hper s
      refine ⟨s1, hc1, ⟨ps ++ qs, ?_⟩, ?_⟩
      · rw [hlog, hl, h2, moves_append]
      · exact measure_decr (by norm_num) (hcond s hc) (le_of_eq (hv s1 s ha).symm))
    st ⟨[], rfl⟩
  exact ⟨st2, ps, Conv.of_two hconv, h2⟩

theorem wideningSine_conv (env : Env) (res : Nat → MoveOutcome) (st : St) :
    ∃ st2 ps, Conv (wideningSine env res) st st2 ∧ st2.log = moves env res st.log ps :=
  ampLoop_conv env res (fun st => st.amp ≤ 50 / 100)
    (fun st => { st with amp := st.amp + 5 / 100 }) (sinePeriod env res) (fun s => s.amp)
    (50 / 100) (sinePeriod_conv env res) (fun _ h => h)
    (fun s t h => by simp only [h]) (fun _ => rfl) { st with amp := 5 / 100 }

theorem narrowingSine_conv (env : Env) (res : Nat → MoveOutcome) (st : St) :
    ∃ st2 ps, Conv (narrowingSine env res) st st2 ∧ st2.log = moves env res st.log ps :=
  ampLoop_conv env res (fun st => st.amp > 0)
    (fun st => { st with amp := st.amp - 5 / 100 }) (sinePeriod env res) (fun s => -s.amp)
    0 (sinePeriod_conv env res) (fun s h => by have : 0 < s.amp := h; show -s.amp ≤ 0; linarith)
    (fun s t h => by simp only [h]; ring) (fun _ => rfl) { st with amp := 50 / 100 }

theorem wideningDouble_conv (env : Env) (res : Nat → MoveOutcome) (st : St) :
    ∃ st2 ps, Conv (wideningDouble env res) st st2 ∧ st2.log = moves env res st.log ps :=
  ampLoop_conv env res (fun st => st.amp ≤ 5 / 10)
    (fun st => { st with amp := st.amp + 5 / 100 }) (doublePeriod env res) (fun s => s.amp)
    (5 / 10) (doublePeriod_conv env res) (fun _ h => h)
    (fun s t h => by simp only [h]) (fun _ => rfl) { st with amp := 5 / 100 }

theorem narrowingDouble_conv (env : Env) (res : Nat → MoveOutcome) (st : St) :
    ∃ st2 ps, Conv (narrowingDouble env res) st st2 ∧ st2.log = moves env res st.log ps :=
  ampLoop_conv env res (fun st => st.amp ≥ 0)
    (fun st => { st with amp := st.amp - 5 / 100 }) (doublePeriod env res) (fun s => -s.amp)
    0 (doublePeriod_conv env res) (fun s h => by have : 0 ≤ s.amp := h; show -s.amp ≤ 0; linarith)
    (fun s t h => by simp only [h]; ring) (fun _ => rfl) { st with amp := 50 / 100 }

/-! ## Phase 7: the multi-head sweep -/

theorem noisy_length (rand : Nat → Nat) (r : Nat) (bs : List ℚ) :
    (noisy rand r bs).length = bs.length := by
  induction bs generalizing r with
  | nil => rfl
  | cons b bs ih => simp [noisy, ih]

theorem noisy_append (rand : Nat → Nat) (r : Nat) (as bs : List ℚ) :
    noisy rand r (as ++ bs) = noisy rand r as ++ noisy rand (r + as.length) bs := by
  induction as generalizing r with
  | nil => simp [noisy]
  | cons a as ih =>
    have e : r + 1 + as.length = r + (as.length + 1) := by omega
    show (a + NOISE (rand r)) :: noisy rand (r + 1) (as ++ bs) =
      (a + NOISE (rand r)) :: (noisy rand (r + 1) as ++ noisy rand (r + (as.length + 1)) bs)
    rw [ih, e]

theorem Emitted.refl (env : Env) (res : Nat → MoveOutcome) (st : St) :
    Emitted env res st st [] := ⟨rfl, rfl⟩

theorem Emitted.trans {env : Env} {res : Nat → MoveOutcome} {a b c : St} {as bs : List ℚ}
    (h1 : Emitted env res a b as) (h2 : Emitted env res b c bs) :
    Emitted env res a c (as ++ bs) := by
  obtain ⟨l1, r1⟩ := h1
  obtain ⟨l2, r2⟩ := h2
  refine ⟨?_, ?_⟩
  · rw [l2, l1, r1, noisy_append, moves_append]
  · rw [r2, r1, List.length_append]
    omega

theorem Emitted.moveNoisy (env : Env) (res : Nat → MoveOutcome) (st : St) (b : ℚ) :
    Emitted env res st (St.moveNoisy env res st b) [b] := ⟨rfl, rfl⟩

theorem Emitted.attempted {env : Env} {res : Nat → MoveOutcome} {a b : St} {bs : List ℚ}
    (h : Emitted env res a b bs) :
    attempted b.log = attempted a.log ++ noisy env.rand a.rng bs := by
  rw [h.1, attempted_moves]

theorem headsRow_conv (env : Env) (res : Nat → MoveOutcome) (st : St) (c : Nat)
    (hc : st.heads = (c : Int)) :
    ∃ st2, Conv (headsRow env res) st st2 ∧ st2.heads = st.heads ∧ st2.rep = st.rep ∧
      st2.i = st.i ∧ Emitted env res st st2 (headRow c) := by
  obtain ⟨st2, hconv, h1, h2, h3, -, h5⟩ := forLoop_counted (fun st => st.j ≤ st.heads)
    (fun st => { st with j := st.j + 1 })
    (fun _ st => some (St.moveNoisy env res st ((st.j : ℚ) / ((st.heads + 1 : Int) : ℚ))))
    (fun k s => s.heads = st.heads ∧ s.rep = st.rep ∧ s.i = st.i ∧ s.j = (k : Int) + 1 ∧
      Emitted env res st s ((List.range k).map
        fun (j : Nat) => ((j + 1 : Nat) : ℚ) / ((c + 1 : Nat) : ℚ)))
    c
    (by
      rintro k s hk ⟨h1, h2, h3, h4, h5⟩
      refine ⟨?_, _, Conv.pure _ rfl, h1, h2, h3, ?_, ?_⟩
      · show s.j ≤ s.heads
        rw [h4, h1, hc]
        omega
      · show s.j + 1 = ((k + 1 : Nat) : Int) + 1
        rw [h4]
        push_cast
        ring
      · rw [List.range_succ, List.map_append]
        have hb : (s.j : ℚ) / ((s.heads + 1 : Int) : ℚ) =
            ((k + 1 : Nat) : ℚ) / ((c + 1 : Nat) : ℚ) := by
          rw [h4, h1, hc]
          push_cast
          rfl
        simp only [List.map_cons, List.map_nil]
        rw [← hb]
        exact Emitted.trans h5 (Emitted.moveNoisy env res s
          ((s.j : ℚ) / ((s.heads + 1 : Int) : ℚ))))
    (by
      rintro s ⟨h1, -, -, h4, -⟩
      show ¬ (s.j ≤ s.heads)
      rw [h4, h1, hc]
      omega)
    { st with j := 1 } ⟨rfl, rfl, rfl, by simp, Emitted.refl env res _⟩
  exact ⟨st2, Conv.of_two hconv, h1, h2, h3, h5⟩

theorem flatten_replicate_succ (k : Nat) (row : List ℚ) :
    (List.replicate (k + 1) row).flatten = (List.replicate k row).flatten ++ row := by
  rw [List.replicate_succ', List.flatten_append]
  simp

theorem headsBlock_conv (env : Env) (res : Nat → MoveOutcome) (st : St) (c : Nat)
    (hc : st.heads = (c : Int)) :
    ∃ st2, Conv (headsBlock env res) st st2 ∧ st2.heads = st.heads ∧
      Emitted env res st st2 (List.replicate (160 / c) (headRow c)).flatten := by
  obtain ⟨st2, hconv, h1, -, -, h4⟩ := forLoop_counted (fun st => st.i < st.rep)
    (fun st => { st with i := st.i + 1 })
    (headsRow env res)
    (fun k s => s.heads = st.heads ∧ s.rep = ((160 / c : Nat) : Int) ∧ s.i = (k : Int) ∧
      Emitted env res st s (List.replicate k (headRow c)).flatten)
    (160 / c)
    (by
      rintro k s hk ⟨h1, h2, h3, h4⟩
      obtain ⟨s1, hconv, e1, e2, e3, e4⟩ := headsRow_conv env res s c (h1.trans hc)
      refine ⟨?_, s1, hconv, e1.trans h1, e2.trans h2, ?_, ?_⟩
      · show s.i < s.rep
        rw [h2, h3]
        exact_mod_cast hk
      · show s1.i + 1 = ((k + 1 : Nat) : Int)
        rw [e3, h3]
        push_cast
        rfl
      · rw [flatten_replicate_succ]
        exact Emitted.trans h4 e4)
    (by
      rintro s ⟨-, h2, h3, -⟩
      show ¬ (s.i < s.rep)
      rw [h2, h3]
      exact lt_irrefl _)
    { st with rep := Int.tdiv 160 st.heads, i := 0 }
    ⟨rfl, by rw [hc]; rfl, rfl, Emitted.refl env res _⟩
  obtain ⟨N, hN⟩ := hconv
  exact ⟨st2, ⟨N, fun n hn => hN n n hn hn⟩, h1, h4⟩

theorem headBases_append (as bs : List Nat) :
    headBases (as ++ bs) = headBases as ++ headBases bs := by
  simp [headBases, List.flatMap_append]

theorem headBases_single (c : Nat) :
    headBases [c] = (List.replicate (160 / c) (headRow c)).flatten := by
  simp [headBases]

theorem headRow_length (c : Nat) : (headRow c).length = c := by
  simp [headRow]

theorem headBases_length (cs : List Nat) :
    (headBases cs).length = (cs.map fun c => 160 / c * c).sum := by
  induction cs with
  | nil => rfl
  | cons c cs ih =>
    have h : headBases (c :: cs) = headBases [c] ++ headBases cs := headBases_append [c] cs
    rw [h, List.length_append, ih, headBases_single]
    simp [headRow_length]

theorem headsUp_conv (env : Env) (res : Nat → MoveOutcome) (st : St) :
    ∃ st2, Conv (headsUp env res) st st2 ∧ st2.heads = 7 ∧
      Emitted env res st st2 (headBases [2, 3, 4, 5, 6]) := by
  obtain ⟨st2, hconv, h1, h2⟩ := forLoop_counted (fun st => st.heads < 7)
    (fun st => { st with heads := st.heads + 1 })
    (headsBlock env res)
    (fun k s => s.heads = (k : Int) + 2 ∧
      Emitted env res st s (headBases ((List.range k).map fun (i : Nat) => i + 2)))
    5
    (by
      rintro k s hk ⟨h1, h2⟩
      obtain ⟨s1, hconv, e1, e2⟩ := headsBlock_conv env res s (k + 2) (by rw [h1]; rfl)
      refine ⟨?_, s1, hconv, ?_, ?_⟩
      · show s.heads < 7
        rw [h1]
        omega
      · show s1.heads + 1 = ((k + 1 : Nat) : Int) + 2
        rw [e1, h1]
        push_cast
        ring
      · rw [List.range_succ, List.map_append, headBases_append]
        exact Emitted.trans h2 (by simpa [headBases_single] using e2))
    (by
      rintro s ⟨h1, -⟩
      show ¬ (s.heads < 7)
      rw [h1]
      norm_num)
    { st with heads := 2 } ⟨rfl, Emitted.refl env res _⟩
  obtain ⟨N, hN⟩ := hconv
  exact ⟨st2, ⟨N, fun n hn => hN n n hn hn⟩, by rw [h1]; norm_num, h2⟩

theorem headsDown_conv (env : Env) (res : Nat → MoveOutcome) (st : St) (h7 : st.heads = 7) :
    ∃ st2, Conv (headsDown env res) st st2 ∧
      Emitted env res st st2 (headBases [7, 5, 3, 1]) := by
  obtain ⟨st2, hconv, h1, h2⟩ := forLoop_counted (fun st => st.heads > 0)
    (fun st => { st with heads := st.heads - 2 })
    (headsBlock env res)
    (fun k s => s.heads = 7 - 2 * (k : Int) ∧
      Emitted env res st s (headBases ((List.range k).map fun (i : Nat) => 7 - 2 * i)))
    4
    (by
      rintro k s hk ⟨h1, h2⟩
      obtain ⟨s1, hconv, e1, e2⟩ := headsBlock_conv env res s (7 - 2 * k)
        (by rw [h1]; omega)
      refine ⟨?_, s1, hconv, ?_, ?_⟩
      · show s.heads > 0
        rw [h1]
        omega
      · show s1.heads - 2 = 7 - 2 * ((k + 1 : Nat) : Int)
        rw [e1, h1]
        push_cast
        ring
      · rw [List.range_succ, List.map_append, headBases_append]
        exact Emitted.trans h2 (by simpa [headBases_single] using e2))
    (by
      rintro s ⟨h1, -⟩
      show ¬ (s.heads > 0)
      rw [h1]
      norm_num)
    st ⟨by rw [h7]; norm_num, Emitted.refl env res _⟩
  obtain ⟨N, hN⟩ := hconv
  exact ⟨st2, ⟨N, fun n hn => hN n n hn hn⟩, h2⟩

theorem multiHead_conv (env : Env) (res : Nat → MoveOutcome) (st : St) :
    ∃ st2, Conv (multiHead env res) st st2 ∧
      Emitted env res st st2 (headBases codeHeadCounts) := by
  obtain ⟨s1, c1, h7, e1⟩ := headsUp_conv env res { st with heads := 0 }
  obtain ⟨s2, c2, e2⟩ := headsDown_conv env res s1 h7
  refine ⟨s2, ?_, ?_⟩
  · obtain ⟨N, hN⟩ := Conv.bind c1 c2
    exact ⟨N, fun n hn => hN n hn⟩
  · have h : codeHeadCounts = [2, 3, 4, 5, 6] ++ [7, 5, 3, 1] := rfl
    rw [h, headBases_append]
    exact Emitted.trans (a := st) e1 e2

/-- C5, as the code has it: phase 7 ends, and the positions it passes to
`move_head_win32` are, in order, those of the head counts 2, 3, 4, 5, 6 and then
7, 5, 3, 1: for each head count `c`, `160 / c` rows (integer division), each row being
`j / (c + 1) + NOISE` for `j = 1..c`, every `NOISE` drawn by the next call of `rand()`.
That is 1428 moves. -/
theorem multiHead_positions (env : Env) (res : Nat → MoveOutcome) (st : St) :
    ∃ st2, Conv (multiHead env res) st st2 ∧
      attempted st2.log = attempted st.log ++
        noisy env.rand st.rng
          ([2, 3, 4, 5, 6, 7, 5, 3, 1].flatMap fun (c : Nat) =>
            (List.replicate (160 / c)
              ((List.range c).map fun (j : Nat) =>
                ((j + 1 : Nat) : ℚ) / ((c + 1 : Nat) : ℚ))).flatten) ∧
      st2.rng = st.rng + 1428 ∧ st2.log.length = st.log.length + 1428 := by
  obtain ⟨st2, hc, he⟩ := multiHead_conv env res st
  have hlen : (headBases codeHeadCounts).length = 1428 := by
    rw [headBases_length]
    rfl
  refine ⟨st2, hc, he.attempted, by rw [he.2, hlen], ?_⟩
  have h := congrArg List.length he.attempted
  simp only [attempted, List.length_map, List.length_append, noisy_length, hlen] at h
  exact h

theorem noisy_getElem_opt (rand : Nat → Nat) (r : Nat) (bs : List ℚ) (k : Nat) :
    (noisy rand r bs)[k]? = bs[k]?.map fun b => b + NOISE (rand (r + k)) := by
  induction bs generalizing r k with
  | nil => simp [noisy]
  | cons b bs ih =>
    cases k with
    | zero => simp [noisy]
    | succ k =>
      have e : r + 1 + k = r + (k + 1) := by omega
      simp [noisy, ih, e]

theorem headBases_cons_head (c : Nat) (cs : List Nat) (hc : 0 < c) (h160 : c ≤ 160) :
    ∃ rest, headBases (c :: cs) = ((1 : ℚ) / ((c + 1 : Nat) : ℚ)) :: rest := by
  have h1 : headBases (c :: cs) = headBases [c] ++ headBases cs := headBases_append [c] cs
  obtain ⟨q, hq⟩ : ∃ q, 160 / c = q + 1 :=
    ⟨160 / c - 1, by have := Nat.div_pos h160 hc; omega⟩
  obtain ⟨d, hd⟩ : ∃ d, c = d + 1 := ⟨c - 1, by omega⟩
  have h2 : headRow c = ((1 : ℚ) / ((c + 1 : Nat) : ℚ)) ::
      (List.range d).map (fun (j : Nat) => ((j + 1 + 1 : Nat) : ℚ) / ((c + 1 : Nat) : ℚ)) := by
    subst hd
    simp [headRow, List.range_succ_eq_map, Function.comp_def]
  rw [h1, headBases_single, hq, List.replicate_succ, List.flatten_cons, h2]
  exact ⟨_, rfl⟩

theorem headBases_at_795 (cs : List Nat) (c : Nat) (hc : 0 < c) (h160 : c ≤ 160) :
    (headBases ([2, 3, 4, 5, 6] ++ c :: cs))[795]? = some ((1 : ℚ) / ((c + 1 : Nat) : ℚ)) := by
  have hlen : (headBases [2, 3, 4, 5, 6]).length = 795 := by
    rw [headBases_length]
    rfl
  obtain ⟨rest, hr⟩ := headBases_cons_head c cs hc h160
  rw [headBases_append, List.getElem?_append_right (by rw [hlen]), hlen, hr]
  simp

/-- C5, as the specification has it, fails on the sample run (`rand()` always 0, so
every `NOISE` is 0.0001): the head counts 2, 3, 4, 5, 6, 6, 4, 2 would give 1271
positions, while phase 7 emits 1428.  The first 795 positions agree; position number
795 (counting from 0) is `1/8 + 0.0001`, the first head of 7, where the specification
has `1/7 + 0.0001`, the first head of 6. -/
theorem multiHead_not_spec_counts :
    (¬ ∃ st2, Conv (multiHead sampleEnv allOk) St.init st2 ∧
      attempted st2.log = noisy sampleEnv.rand 0 (headBases specHeadCounts)) ∧
    (∃ st2, Conv (multiHead sampleEnv allOk) St.init st2 ∧
      (attempted st2.log)[795]? = some (1 / 8 + 1 / 10000)) ∧
    (noisy sampleEnv.rand 0 (headBases specHeadCounts))[795]? = some (1 / 7 + 1 / 10000) := by
  obtain ⟨st3, hc3, he⟩ := multiHead_conv sampleEnv allOk St.init
  have hN : NOISE (sampleEnv.rand (0 + 795)) = 1 / 10000 := by
    simp [NOISE, sampleEnv]
  refine ⟨?_, ⟨st3, hc3, ?_⟩, ?_⟩
  · rintro ⟨st2, hc, ha⟩
    have e := Conv.unique hc hc3
    subst e
    have h := he.attempted
    rw [ha] at h
    have hl := congrArg List.length h
    simp only [noisy_length, headBases_length, List.length_append, attempted, St.init,
      List.map_nil, List.length_nil] at hl
    revert hl
    decide
  · have h : attempted st3.log = noisy sampleEnv.rand 0 (headBases codeHeadCounts) := by
      rw [he.attempted]
      rfl
    have hcode : codeHeadCounts = [2, 3, 4, 5, 6] ++ 7 :: [5, 3, 1] := rfl
    rw [h, noisy_getElem_opt, hcode, headBases_at_795 _ 7 (by norm_num) (by norm_num), hN]
    norm_num
  · have hspec : specHeadCounts = [2, 3, 4, 5, 6] ++ 6 :: [4, 2] := rfl
    rw [noisy_getElem_opt, hspec, headBases_at_795 _ 6 (by norm_num) (by norm_num), hN]
    norm_num

/-! ## Phase 8 and the whole sequencer -/

theorem randomJumps_conv (env : Env) (res : Nat → MoveOutcome) (st : St) :
    ∃ st2 ps, Conv (randomJumps env res) st st2 ∧ st2.log = moves env res st.log ps ∧
      ps.length = 600 := by
  obtain ⟨st2, hconv, -, ps, h2, h3⟩ := forLoop_counted (fun st => st.i < 600)
    (fun st => { st with i := st.i + 1 })
    (fun _ st => some { St.move env res st ((env.rand st.rng : ℚ) / (env.RAND_MAX : ℚ)) with
      rng := st.rng + 1 })
    (fun k s => s.i = (k : Int) ∧ ∃ ps, s.log = moves env res st.log ps ∧ ps.length = k)
    600
    (by
      rintro k s hk ⟨h1, ps, h2, h3⟩
      refine ⟨?_, _, Conv.pure _ rfl, ?_, ps ++ [(env.rand s.rng : ℚ) / (env.RAND_MAX : ℚ)],
        St.move_ext env res h2 _, by simp [h3]⟩
      · show s.i < 600
        rw [h1]
        exact_mod_cast hk
      · show s.i + 1 = ((k + 1 : Nat) : Int)
        rw [h1]
        push_cast
        rfl)
    (by
      rintro s ⟨h1, -⟩
      show ¬ (s.i < 600)
      rw [h1]
      norm_num)
    { st with i := 0 } ⟨rfl, [], rfl, rfl⟩
  obtain ⟨N, hN⟩ := hconv
  exact ⟨st2, ps, ⟨N, fun n hn => hN n n hn hn⟩, h2, h3⟩

theorem tightening_conv (env : Env) (res : Nat → MoveOutcome) (st : St) (hs : 0 < st.s) :
    ∃ st2 ps, Conv (tightening env res) st st2 ∧ st2.log = moves env res st.log ps := by
  obtain ⟨st2, hconv, ⟨-, ps, h2⟩, -⟩ := forLoop_total (fun st => st.l < st.h)
    (fun st => st) (tightenRound env res)
    (fun s => 0 < s.s ∧ ∃ ps, s.log = moves env res st.log ps)
    (fun s => (⌊(0 - (s.l - s.h)) / (1 / 10)⌋ + 1).toNat)
    (by
      rintro s ⟨h1, ps, h2⟩ hc
      obtain ⟨mid, low, ups, downs, -, l1, -, -, l2, -, e1, e2, e3, hconv⟩ :=
        tightenRound_conv env res s h1
      refine ⟨_, hconv, ⟨by simpa [e1] using h1, ps ++ (ups ++ downs), ?_⟩, ?_⟩
      · show low.log = _
        rw [l2, l1, h2, moves_append, moves_append]
      · have hc' : s.l < s.h := hc
        exact measure_decr (by norm_num) (by linarith)
          (by simp only [e2, e3]; linarith))
    { st with h := 9 / 10, l := 1 / 10 } ⟨hs, [], rfl⟩
  obtain ⟨N, hN⟩ := hconv
  exact ⟨st2, ps, ⟨N, fun n hn => hN n n hn hn⟩, h2⟩

theorem sequencer_conv (env : Env) (res : Nat → MoveOutcome) (st : St)
    (hs0 : 0 < st.s) (hs1 : st.s ≤ 1) :
    ∃ st2 ps, Conv (sequencer env res) st st2 ∧
      st2.log = moves env res st.log (zigPositions st.s 5 ++ ps) := by
  have c1 := zigzag_conv env res st hs0 hs1
  obtain ⟨s2, p2, c2, l2⟩ := tightening_conv env res
    { st with
      i := 5
      f := zigEnd st.s st.f 5
      log := moves env res st.log (zigPositions st.s 5) } hs0
  obtain ⟨s3, p3, c3, l3⟩ := wideningSine_conv env res s2
  obtain ⟨s4, p4, c4, l4⟩ := narrowingSine_conv env res s3
  obtain ⟨s5, p5, c5, l5⟩ := wideningDouble_conv env res s4
  obtain ⟨s6, p6, c6, l6⟩ := narrowingDouble_conv env res s5
  obtain ⟨s7, c7, l7, -⟩ := multiHead_conv env res s6
  obtain ⟨s8, p8, c8, l8, -⟩ := randomJumps_conv env res s7
  refine ⟨s8, p2 ++ (p3 ++ (p4 ++ (p5 ++ (p6 ++
    (noisy env.rand s6.rng (headBases codeHeadCounts) ++ p8))))), ?_, ?_⟩
  · obtain ⟨N, hN⟩ := Conv.bind (Conv.bind (Conv.bind (Conv.bind (Conv.bind (Conv.bind
      (Conv.bind c1 c2) c3) c4) c5) c6) c7) c8
    refine ⟨N, fun n hn => ?_⟩
    have h := hN n hn
    simp only [Option.bind_eq_bind, Option.bind_assoc] at h
    unfold sequencer
    exact h
  · rw [l8, l7, l6, l5, l4, l3, l2]
    simp only [moves_append]

theorem zigPositions_head (s : ℚ) :
    ∃ rest, zigPositions s 5 = 0 :: rest := by
  have h : zigPositions s 5 = forwardSweep (zigStep s ((0 : Nat) : Int)) ++
      ((zigPair s 0).2 ++ (List.range' 1 4).flatMap
        fun (i : Nat) => (zigPair s i).1 ++ (zigPair s i).2) := by
    simp [zigPositions, List.range_succ_eq_map, zigPair, List.range']
  have h0 := forwardSweep_head (zigStep s ((0 : Nat) : Int))
  rcases hf : forwardSweep (zigStep s ((0 : Nat) : Int)) with _ | ⟨a, t⟩
  · rw [hf] at h0
    simp at h0
  · rw [hf] at h0
    simp only [List.head?_cons, Option.some.injEq] at h0
    exact ⟨_, by rw [h, hf, h0]; rfl⟩

/-- Every run of `main` ends: with enough fuel the result is `some ...`.  Once the
device is open and `BytesPerSector` is not 0 the sequencer runs, `main` returns 0, and
the first position attempted is 0. -/
theorem main_conv (env : Env) (res : Nat → MoveOutcome) (h1 : ¬ env.argc < 2)
    (h2 : env.snprintfOk = true) (h3 : env.openOk = true) (h4 : env.bytesPerSector ≠ 0) :
    ∃ log rest N, attempted log = 0 :: rest ∧ ∀ n, N ≤ n →
      main env res n = some (.returned 0
        (if !env.geomOk then [Message.geometryFailed] else []) log) := by
  obtain ⟨st2, ps, ⟨N, hN⟩, hl⟩ := sequencer_conv env res St.init
    (by simp [St.init]) (by simp [St.init]; norm_num)
  obtain ⟨rest, hr⟩ := zigPositions_head St.init.s
  refine ⟨st2.log, rest ++ ps, N, ?_, fun n hn => ?_⟩
  · rw [hl, attempted_moves, hr]
    rfl
  · simp [main, h1, h2, h3, h4, hN n hn]

/-! ## The outcomes of the moves do not steer the sequencer -/

/-- C6: what `main` does when the device opens and the geometry query fails.  With
`diskgeom` left at its zero initialisation it prints the failure line and reaches the
division of line 201 with `BytesPerSector = 0`; with a non-zero `BytesPerSector` in
`diskgeom` it prints the failure line, runs the sequencer (first position 0) and
returns 0.  In neither case does it return a non-zero code before any move, as it does
on the open failure path, which returns -1 with no move. -/
theorem main_geometry_failure_not_fatal :
    (∀ res fuel,
      main { sampleEnv with geomOk := false, diskSize := 0, bytesPerSector := 0 } res fuel =
        some (.divideByZero [.geometryFailed])) ∧
    (∀ res, ∃ log rest N, attempted log = 0 :: rest ∧ ∀ n, N ≤ n →
      main { sampleEnv with geomOk := false } res n =
        some (.returned 0 [.geometryFailed] log)) ∧
    (∀ res fuel, ∃ msgs,
      main { sampleEnv with openOk := false } res fuel = some (.returned (-1) msgs [])) := by
  refine ⟨fun res fuel => rfl, fun res => ?_, fun res fuel => ⟨_, rfl⟩⟩
  exact main_conv { sampleEnv with geomOk := false } res (by decide) rfl rfl (by decide)

/-! ## Instances at concrete inputs -/

/-- Instance of C3 at the arguments 0.5, -3 and 1.5. -/
theorem move_head_win32_clamps_witness :
    (move_head_win32 1048576 512 (1 / 2) 512 { seekOk := true, readOk := true }).position =
        1 / 2 ∧
      (move_head_win32 1048576 512 (-3) 512 { seekOk := true, readOk := true }).position = 0 ∧
      (move_head_win32 1048576 512 (3 / 2) 512 { seekOk := true, readOk := true }).position =
        1 :=
  ⟨(move_head_win32_clamps 1048576 512 (1 / 2) 512 _).2.2.1 ⟨by norm_num, by norm_num⟩,
   (move_head_win32_clamps 1048576 512 (-3) 512 _).2.2.2.1 (by norm_num),
   (move_head_win32_clamps 1048576 512 (3 / 2) 512 _).2.2.2.2.1 (by norm_num)⟩

end HDMotion
